import Mathlib

/-!
Verification of the hocr_editor core (src/tree.rs, src/ocr_element.rs).

The Rust sources are shallowly embedded:

* `Tree<D>` (src/tree.rs) becomes `Tree D` below; the `HashMap<InternalID,
  Node<D>>` is modelled as an association list with unique keys (`Map D`)
  whose `mfind`/`mset`/`merase` mirror `HashMap::get`/`insert`/`remove`.
  `InternalID = u32` (src/main.rs line 42): identifiers are `Nat` and the
  counter increment `self.curr_id += 1` is taken modulo `2 ^ 32`, the
  release-mode wrapping semantics of `u32` addition.
* Rust panics (`expect`, out-of-bounds indexing) are modelled by the
  `PRes` result type: `PRes.panic` marks an aborted execution.
* `f32` values are modelled as exact rationals (`ERat`, a pair kept in
  lowest terms); the model of `str::parse::<f32>` accepts an optional
  sign, a decimal mantissa and an optional integer exponent (the
  `inf`/`nan` spellings and floating-point rounding are not modelled),
  and the model of float formatting prints the exact decimal expansion.
  `as u32` casts on `f32` are saturating truncation, as in Rust.
-/

namespace HocrEditor

/-- Result of a Rust computation that can panic (`expect`, indexing). -/
inductive PRes (α : Type _) where
  | panic : PRes α
  | ok : α → PRes α
deriving DecidableEq, Repr

/-- Modulus of the `u32` type used for `InternalID` (src/main.rs line 42). -/
def U32MOD : Nat := 2 ^ 32

/-- Node of the forest (src/tree.rs lines 13-21): a value, an optional
parent id, the ordered child-id list, and the node's own id. -/
structure Node (D : Type _) where
  value : D
  parent : Option Nat
  children : List Nat
  id : Nat
deriving DecidableEq, Repr

/-- The node store: `HashMap<InternalID, Node<D>>` as an association list
with unique keys. -/
abbrev Map (D : Type _) := List (Nat × Node D)

/-- Model of `HashMap::get`. -/
def mfind {D : Type _} : Map D → Nat → Option (Node D)
  | [], _ => none
  | (k, v) :: rest, key => if k = key then some v else mfind rest key

/-- Model of `HashMap::insert`: replace the binding in place if the key is
present, otherwise append it. -/
def mset {D : Type _} : Map D → Nat → Node D → Map D
  | [], k, v => [(k, v)]
  | (k0, v0) :: rest, k, v =>
      if k0 = k then (k, v) :: rest else (k0, v0) :: mset rest k v

/-- Model of `HashMap::remove` (drops the first binding of the key). -/
def merase {D : Type _} : Map D → Nat → Map D
  | [], _ => []
  | (k0, v0) :: rest, k => if k0 = k then rest else (k0, v0) :: merase rest k

/-- The forest (src/tree.rs lines 6-11): node store, ordered root list and
the next-identity counter. -/
structure Tree (D : Type _) where
  nodes : Map D
  roots : List Nat
  curr_id : Nat
deriving DecidableEq, Repr

/-- `Position` (src/tree.rs lines 23-27). -/
inductive Pos where
  | Before
  | After
deriving DecidableEq, Repr

namespace Tree

variable {D : Type _}

/-- `Tree::new` (src/tree.rs lines 31-37). -/
def new : Tree D := ⟨[], [], 0⟩

/-- `Tree::add_root` (src/tree.rs lines 40-54): insert a parentless node,
push its id onto the root list, bump the counter.  Returns the new id. -/
def add_root (t : Tree D) (root : D) : Nat × Tree D :=
  let id := t.curr_id
  (id,
    { nodes := mset t.nodes id ⟨root, none, [], id⟩
      roots := t.roots ++ [id]
      curr_id := (t.curr_id + 1) % U32MOD })

/-- `Tree::push_child` (src/tree.rs lines 57-75).  On a missing parent the
map is untouched and an error is returned (the message is abbreviated). -/
def push_child (t : Tree D) (id : Nat) (child : D) : Except String Nat × Tree D :=
  match mfind t.nodes id with
  | some parentNode =>
      let new_id := t.curr_id
      let nodes1 := mset t.nodes id
        { parentNode with children := parentNode.children ++ [new_id] }
      let nodes2 := mset nodes1 new_id ⟨child, some id, [], new_id⟩
      (Except.ok new_id,
        { nodes := nodes2, roots := t.roots, curr_id := (t.curr_id + 1) % U32MOD })
  | none => (Except.error "push_child: node does not exist!", t)

/-- `Tree::get_node` (src/tree.rs lines 129-131). -/
def get_node (t : Tree D) (id : Nat) : Option D :=
  (mfind t.nodes id).map (fun node => node.value)

/-- `Tree::children` (src/tree.rs lines 134-139): empty list when the node
is absent. -/
def children (t : Tree D) (id : Nat) : List Nat :=
  match mfind t.nodes id with
  | some node => node.children
  | none => []

/-- `Tree::parent` (src/tree.rs lines 141-143). -/
def parent (t : Tree D) (id : Nat) : Option Nat :=
  match mfind t.nodes id with
  | some node => node.parent
  | none => none

/-- `Tree::add_sibling` (src/tree.rs lines 79-126).  The two `expect`
calls become `PRes.panic`; the root anchor branch delegates to
`add_root`; a missing anchor returns the error untouched. -/
def add_sibling (t : Tree D) (id : Nat) (sibling : D) (pos : Pos) :
    PRes (Except String Nat × Tree D) :=
  match mfind t.nodes id with
  | some node =>
      match node.parent with
      | some par_id =>
          let new_id := t.curr_id
          let t1 : Tree D :=
            { nodes := mset t.nodes new_id ⟨sibling, some par_id, [], new_id⟩
              roots := t.roots
              curr_id := (t.curr_id + 1) % U32MOD }
          match List.findIdx? (fun x => x = id) (t1.children par_id) with
          | none => PRes.panic
          | some par_child_index =>
              let insert_index := par_child_index +
                (match pos with | Pos.After => 1 | Pos.Before => 0)
              match mfind t1.nodes par_id with
              | none => PRes.panic
              | some parNode =>
                  let parNode2 : Node D :=
                    { parNode with
                        children := List.insertIdx insert_index new_id parNode.children }
                  PRes.ok (Except.ok new_id,
                    { t1 with nodes := mset t1.nodes par_id parNode2 })
      | none =>
          let r := t.add_root sibling
          PRes.ok (Except.ok r.1, r.2)
  | none => PRes.ok (Except.error "add_sibling: node does not exist!", t)

/-- `Tree::siblings` (src/tree.rs lines 146-158): the parent's child list,
or the root list for a parentless node; panics when the recorded parent is
missing. -/
def siblings (t : Tree D) (id : Nat) : PRes (Option (List Nat)) :=
  match mfind t.nodes id with
  | none => PRes.ok none
  | some node =>
      match node.parent with
      | some par_id =>
          match mfind t.nodes par_id with
          | none => PRes.panic
          | some parNode => PRes.ok (some parNode.children)
      | none => PRes.ok (some t.roots)

/-- `Tree::prev_siblings` (src/tree.rs lines 162-172). -/
def prev_siblings (t : Tree D) (id : Nat) : PRes (List Nat) :=
  match t.siblings id with
  | PRes.panic => PRes.panic
  | PRes.ok none => PRes.ok []
  | PRes.ok (some sibs) =>
      match List.findIdx? (fun x => x = id) sibs with
      | none => PRes.panic
      | some my_index => PRes.ok (sibs.take my_index)

/-- `Tree::next_siblings` (src/tree.rs lines 242-252). -/
def next_siblings (t : Tree D) (id : Nat) : PRes (List Nat) :=
  match t.siblings id with
  | PRes.panic => PRes.panic
  | PRes.ok none => PRes.ok []
  | PRes.ok (some sibs) =>
      match List.findIdx? (fun x => x = id) sibs with
      | none => PRes.panic
      | some my_index => PRes.ok (sibs.drop (my_index + 1))

/-- `Tree::next_sibling` (src/tree.rs lines 212-214). -/
def next_sibling (t : Tree D) (id : Nat) : PRes (Option Nat) :=
  match t.next_siblings id with
  | PRes.panic => PRes.panic
  | PRes.ok l => PRes.ok l.head?

/-- `Tree::prev_sibling` (src/tree.rs lines 216-240): its own lookup of
the sibling list, then the element before the node's index, if any. -/
def prev_sibling (t : Tree D) (id : Nat) : PRes (Option Nat) :=
  match mfind t.nodes id with
  | none => PRes.ok none
  | some node =>
      let sibsR : PRes (List Nat) :=
        match node.parent with
        | some par_id =>
            match mfind t.nodes par_id with
            | none => PRes.panic
            | some parNode => PRes.ok parNode.children
        | none => PRes.ok t.roots
      match sibsR with
      | PRes.panic => PRes.panic
      | PRes.ok sibs =>
          match List.findIdx? (fun x => x = id) sibs with
          | none => PRes.panic
          | some my_index =>
              PRes.ok (if 0 < my_index then some (sibs.getD (my_index - 1) 0) else none)

/-- `Tree::has_children` (src/tree.rs lines 254-259). -/
def has_children (t : Tree D) (id : Nat) : Bool :=
  match mfind t.nodes id with
  | some node => 0 < node.children.length
  | none => false

/-- `Tree::roots` (src/tree.rs lines 261-263). -/
def rootsView (t : Tree D) : List Nat := t.roots

/-- `Tree::get_mut_node` (src/tree.rs lines 266-271): the observable
content of the returned mutable reference. -/
def get_mut_node (t : Tree D) (id : Nat) : Option D :=
  match mfind t.nodes id with
  | some node => some node.value
  | none => none

/-- Recursive removal helper `Tree::delete_rec_node` (src/tree.rs lines
289-298), which removes a node and then recurses into the children the
removed node listed.  Every productive step shrinks the map, so running
the recursion with the map's size as fuel reproduces the Rust behaviour
exactly (the zero-fuel branch is reached only on an empty map, where the
lookup fails anyway). -/
def delRecF : Nat → Map D → Nat → Map D
  | 0, m, _ => m
  | fuel + 1, m, id =>
      match mfind m id with
      | none => m
      | some node =>
          node.children.foldl (fun acc c => delRecF fuel acc c) (merase m id)

/-- `Tree::delete_node` (src/tree.rs lines 301-316) together with its
helper `delete_child_from_parent` (lines 274-283): remove the subtree,
then detach the id from the root list or from the parent's child list;
the parent lookup inside `delete_child_from_parent` is an `expect`. -/
def delete_node (t : Tree D) (id : Nat) : PRes (Tree D) :=
  match mfind t.nodes id with
  | none => PRes.ok t
  | some node =>
      let m1 := delRecF t.nodes.length t.nodes id
      match node.parent with
      | none =>
          PRes.ok { t with nodes := m1, roots := t.roots.erase id }
      | some par_id =>
          let childList : List Nat :=
            match mfind m1 par_id with
            | some p => p.children
            | none => []
          let index := List.findIdx? (fun x => x = id) childList
          match mfind m1 par_id with
          | none => PRes.panic
          | some parNode =>
              let parNode2 : Node D :=
                { parNode with
                    children :=
                      match index with
                      | some i => parNode.children.eraseIdx i
                      | none => parNode.children }
              PRes.ok { t with nodes := mset m1 par_id parNode2 }

/-- Reparenting loop of `Tree::merge_sibling` (src/tree.rs lines 187-192):
every listed child that exists gets its parent field overwritten. -/
def reparentAll (m : Map D) (cs : List Nat) (pid : Nat) : Map D :=
  cs.foldl
    (fun acc c =>
      match mfind acc c with
      | some n => mset acc c { n with parent := some pid }
      | none => acc)
    m

/-- `Tree::merge_sibling` (src/tree.rs lines 175-210): resolve the
adjacent sibling, reparent its children onto `id` (appending for `After`,
prepending for `Before`), clear the sibling's child list and delete it. -/
def merge_sibling (t : Tree D) (id : Nat) (pos : Pos) : PRes (Tree D) :=
  let sibR : PRes (Option Nat) :=
    match pos with
    | Pos.After => t.next_sibling id
    | Pos.Before => t.prev_sibling id
  match sibR with
  | PRes.panic => PRes.panic
  | PRes.ok none => PRes.ok t
  | PRes.ok (some sibling_id) =>
      let sib_children := t.children sibling_id
      let nodes1 := reparentAll t.nodes sib_children id
      let nodes2 :=
        match mfind nodes1 id with
        | some node =>
            mset nodes1 id
              { node with children :=
                  match pos with
                  | Pos.After => node.children ++ sib_children
                  | Pos.Before => sib_children ++ node.children }
        | none => nodes1
      match mfind nodes2 sibling_id with
      | none => PRes.panic
      | some sibNode =>
          let sibNode2 : Node D := { sibNode with children := [] }
          let t2 : Tree D := { t with nodes := mset nodes2 sibling_id sibNode2 }
          t2.delete_node sibling_id

end Tree

/-! ### Association-map lemmas -/

section MapLemmas

variable {D : Type _}

/-- Keys of the node store. -/
def keys (m : Map D) : List Nat := m.map Prod.fst

@[simp] theorem keys_nil : keys ([] : Map D) = [] := rfl

@[simp] theorem keys_cons (p : Nat × Node D) (m : Map D) :
    keys (p :: m) = p.1 :: keys m := rfl

theorem mfind_eq_none {m : Map D} {k : Nat} : mfind m k = none ↔ k ∉ keys m := by
  induction m with
  | nil => simp [mfind]
  | cons p rest ih =>
      obtain ⟨k0, v0⟩ := p
      by_cases h : k0 = k
      · subst h; simp [mfind]
      · simp [mfind, h, ih, Ne.symm h]

theorem mfind_some_mem_keys {m : Map D} {k : Nat} {n : Node D}
    (h : mfind m k = some n) : k ∈ keys m := by
  by_contra hk
  rw [← mfind_eq_none] at hk
  simp [hk] at h

theorem mem_keys_mfind {m : Map D} {k : Nat} (h : k ∈ keys m) :
    ∃ n, mfind m k = some n := by
  cases hm : mfind m k with
  | none => exact absurd (mfind_eq_none.mp hm) (by simpa using h)
  | some n => exact ⟨n, rfl⟩

@[simp] theorem mfind_mset_self (m : Map D) (k : Nat) (v : Node D) :
    mfind (mset m k v) k = some v := by
  induction m with
  | nil => simp [mset, mfind]
  | cons p rest ih =>
      obtain ⟨k0, v0⟩ := p
      by_cases h : k0 = k <;> simp [mset, mfind, h, ih]

theorem mfind_mset_ne (m : Map D) {k k2 : Nat} (v : Node D) (h : k2 ≠ k) :
    mfind (mset m k v) k2 = mfind m k2 := by
  induction m with
  | nil => simp [mset, mfind, Ne.symm h]
  | cons p rest ih =>
      obtain ⟨k0, v0⟩ := p
      by_cases h0 : k0 = k
      · subst h0; simp [mset, mfind, Ne.symm h]
      · simp only [mset, if_neg h0]
        by_cases h2 : k0 = k2 <;> simp [mfind, h2, ih]

theorem keys_mset_mem (m : Map D) (k : Nat) (v : Node D) (h : k ∈ keys m) :
    keys (mset m k v) = keys m := by
  induction m with
  | nil => simp at h
  | cons p rest ih =>
      obtain ⟨k0, v0⟩ := p
      by_cases h0 : k0 = k
      · subst h0; simp [mset]
      · have : k ∈ keys rest := by
          rcases (by simpa using h) with h1 | h1
          · exact absurd h1.symm h0
          · exact h1
        simp [mset, h0, ih this]

theorem keys_mset_new (m : Map D) (k : Nat) (v : Node D) (h : k ∉ keys m) :
    keys (mset m k v) = keys m ++ [k] := by
  induction m with
  | nil => simp [mset]
  | cons p rest ih =>
      obtain ⟨k0, v0⟩ := p
      have hk0 : k0 ≠ k := by
        intro h0; exact h (by simp [h0])
      have hrest : k ∉ keys rest := fun h1 => h (by simp [h1])
      simp [mset, hk0, ih hrest]

theorem length_mset_mem (m : Map D) (k : Nat) (v : Node D) (h : k ∈ keys m) :
    (mset m k v).length = m.length := by
  have := keys_mset_mem m k v h
  have h1 : (keys (mset m k v)).length = (keys m).length := by rw [this]
  simpa [keys] using h1

theorem merase_eq_filter {m : Map D} (hm : (keys m).Nodup) (k : Nat) :
    merase m k = m.filter (fun p => p.1 ≠ k) := by
  induction m with
  | nil => simp [merase]
  | cons p rest ih =>
      obtain ⟨k0, v0⟩ := p
      have hrest : (keys rest).Nodup := by
        simpa [keys] using hm.of_cons
      by_cases h : k0 = k
      · subst h
        have hk : k0 ∉ keys rest := by simpa [keys] using (List.nodup_cons.mp hm).1
        have hfil : rest.filter (fun p => p.1 ≠ k0) = rest := by
          apply List.filter_eq_self.mpr
          intro p hp
          have hmem : p.1 ∈ keys rest := List.mem_map_of_mem Prod.fst hp
          simp only [ne_eq, decide_eq_true_eq]
          intro hpk; exact hk (hpk ▸ hmem)
        have hstep : List.filter (fun p => decide (p.1 ≠ k0)) ((k0, v0) :: rest)
            = List.filter (fun p => decide (p.1 ≠ k0)) rest := by
          simp [List.filter_cons]
        rw [hstep, hfil]
        simp [merase]
      · simp [merase, h, ih hrest]

theorem keys_filter_sublist (m : Map D) (f : Nat × Node D → Bool) :
    List.Sublist (keys (m.filter f)) (keys m) := (List.filter_sublist m).map Prod.fst

theorem mfind_filter {m : Map D} (hm : (keys m).Nodup) (f : Nat × Node D → Bool) (k : Nat) :
    mfind (m.filter f) k = match mfind m k with
      | none => none
      | some n => if f (k, n) then some n else none := by
  induction m with
  | nil => simp [mfind]
  | cons p rest ih =>
      obtain ⟨k0, v0⟩ := p
      have hrest : (keys rest).Nodup := by simpa [keys] using hm.of_cons
      have hk0 : k0 ∉ keys rest := by simpa [keys] using (List.nodup_cons.mp hm).1
      by_cases h : k0 = k
      · subst h
        by_cases hf : f (k0, v0)
        · simp [List.filter_cons, hf, mfind]
        · have : mfind (rest.filter f) k0 = none := by
            rw [mfind_eq_none]
            intro hmem
            exact hk0 (List.Sublist.mem hmem (keys_filter_sublist rest f))
          simp [List.filter_cons, hf, mfind, this]
      · by_cases hf : f (k0, v0) <;> simp [List.filter_cons, hf, mfind, h, ih hrest]

theorem mfind_merase_ne {m : Map D} {k q : Nat} (h : q ≠ k) :
    mfind (merase m k) q = mfind m q := by
  induction m with
  | nil => simp [merase]
  | cons p rest ih =>
      obtain ⟨k0, v0⟩ := p
      by_cases h0 : k0 = k
      · subst h0
        have hne : ¬ (k0 = q) := fun he => h he.symm
        simp [merase, mfind, hne]
      · by_cases h1 : k0 = q
        · subst h1
          simp [merase, mfind, h0, Ne.symm h]
        · simp [merase, mfind, h0, h1, ih]

theorem mfind_merase_self {m : Map D} (hm : (keys m).Nodup) (k : Nat) :
    mfind (merase m k) k = none := by
  rw [merase_eq_filter hm, mfind_filter hm]
  cases h : mfind m k with
  | none => simp
  | some n => simp

theorem merase_mset_cancel (m : Map D) (k : Nat) (v : Node D) :
    merase (mset m k v) k = merase m k := by
  induction m with
  | nil => simp [mset, merase]
  | cons p rest ih =>
      obtain ⟨k0, v0⟩ := p
      by_cases h0 : k0 = k
      · subst h0; simp [mset, merase]
      · simp [mset, merase, h0, ih]

theorem keys_merase_mem (m : Map D) (k : Nat) :
    k ∈ keys m → (merase m k).length + 1 = m.length := by
  induction m with
  | nil => simp
  | cons p rest ih =>
      obtain ⟨k0, v0⟩ := p
      intro h
      by_cases h0 : k0 = k
      · subst h0; simp [merase]
      · have hk : k ∈ keys rest := by
          rcases (by simpa using h) with h1 | h1
          · exact absurd h1.symm h0
          · exact h1
        simp [merase, h0, ih hk]

theorem keys_merase_sub (m : Map D) (k : Nat) {q : Nat} :
    q ∈ keys (merase m k) → q ∈ keys m := by
  induction m with
  | nil => simp [merase]
  | cons p rest ih =>
      obtain ⟨k0, v0⟩ := p
      by_cases h0 : k0 = k
      · subst h0; intro h; simp [merase] at h; simp [h]
      · intro h
        simp only [merase, if_neg h0, keys_cons, List.mem_cons] at h
        rcases h with h | h
        · simp [h]
        · simp [ih h]

end MapLemmas

/-! ### Shapes: the spanning structure that witnesses forest well-formedness -/

/-- A rose tree of identifiers: the intended parent/child structure of a
well-formed forest. -/
inductive Shape : Type where
  | mk : Nat → List Shape → Shape

/-- Identifier at a shape's root. -/
def Shape.nid : Shape → Nat
  | .mk i _ => i

/-- Child shapes. -/
def Shape.kids : Shape → List Shape
  | .mk _ ks => ks

/-- One node's expected bookkeeping: identifier, parent, child list in
order, and depth. -/
structure Ent where
  key : Nat
  par : Option Nat
  chs : List Nat
  dep : Nat
deriving DecidableEq, Repr

/-- All entries of a shape forest, with depth `d` and parent `po` at the
top level. -/
def entL : Nat → Option Nat → List Shape → List Ent
  | _, _, [] => []
  | d, po, Shape.mk i ks :: r =>
      ⟨i, po, ks.map Shape.nid, d⟩ :: (entL (d + 1) (some i) ks ++ entL d po r)

/-- Entries of a whole forest. -/
def entF (ss : List Shape) : List Ent := entL 0 none ss

/-- Identifiers of a shape forest in preorder. -/
def flatL : List Shape → List Nat
  | [] => []
  | Shape.mk i ks :: r => i :: (flatL ks ++ flatL r)

/-- Every shape of a forest, the nested ones included. -/
def allSub : List Shape → List Shape
  | [] => []
  | Shape.mk i ks :: r => Shape.mk i ks :: (allSub ks ++ allSub r)

@[simp] theorem entL_nil (d : Nat) (po : Option Nat) : entL d po [] = [] := by
  simp [entL]

@[simp] theorem entL_cons (d : Nat) (po : Option Nat) (i : Nat) (ks r : List Shape) :
    entL d po (Shape.mk i ks :: r) =
      ⟨i, po, ks.map Shape.nid, d⟩ :: (entL (d + 1) (some i) ks ++ entL d po r) := by
  simp [entL]

@[simp] theorem flatL_nil : flatL [] = [] := by simp [flatL]

@[simp] theorem flatL_cons (i : Nat) (ks r : List Shape) :
    flatL (Shape.mk i ks :: r) = i :: (flatL ks ++ flatL r) := by simp [flatL]

/-- Induction over shape forests: handles the nesting of `List Shape`
inside `Shape`. -/
theorem forest_ind {P : List Shape → Prop} (h0 : P [])
    (h1 : ∀ i ks r, P ks → P r → P (Shape.mk i ks :: r)) : ∀ l, P l
  | [] => h0
  | Shape.mk i ks :: r => h1 i ks r (forest_ind h0 h1 ks) (forest_ind h0 h1 r)

theorem map_key_entL (l : List Shape) : ∀ (d : Nat) (po : Option Nat),
    (entL d po l).map Ent.key = flatL l := by
  induction l using forest_ind with
  | h0 => simp
  | h1 i ks r ihks ihr => intro d po; simp [ihks, ihr]

@[simp] theorem allSub_nil : allSub [] = [] := by simp [allSub]

@[simp] theorem allSub_cons (i : Nat) (ks r : List Shape) :
    allSub (Shape.mk i ks :: r) = Shape.mk i ks :: (allSub ks ++ allSub r) := by
  simp [allSub]

theorem entL_single (d : Nat) (po : Option Nat) (s : Shape) :
    entL d po [s] = ⟨s.nid, po, s.kids.map Shape.nid, d⟩ :: entL (d + 1) (some s.nid) s.kids := by
  obtain ⟨i, ks⟩ := s
  simp [Shape.nid, Shape.kids]

theorem head_mem_entL {s : Shape} {l : List Shape} (hs : s ∈ l) (d : Nat) (po : Option Nat) :
    (⟨s.nid, po, s.kids.map Shape.nid, d⟩ : Ent) ∈ entL d po l := by
  induction l with
  | nil => cases hs
  | cons s0 r ih =>
      obtain ⟨i, ks⟩ := s0
      rcases List.mem_cons.mp hs with h | h
      · subst h; simp [Shape.nid, Shape.kids]
      · simp only [entL_cons, List.mem_cons, List.mem_append]
        exact Or.inr (Or.inr (ih h))

theorem dep_le_of_mem_entL {l : List Shape} : ∀ {d : Nat} {po : Option Nat} {e : Ent},
    e ∈ entL d po l → d ≤ e.dep := by
  induction l using forest_ind with
  | h0 => intro d po e h; simp at h
  | h1 i ks r ihks ihr =>
      intro d po e h
      rcases (by simpa using h) with h | h | h
      · subst h; simp
      · exact Nat.le_of_succ_le (ihks h)
      · exact ihr h

/-- Every entry is either the top entry of one of the listed shapes (with
the ambient parent and depth) or has its parent entry in the same list,
one level up. -/
theorem top_or_linked {l : List Shape} : ∀ {d : Nat} {po : Option Nat} {e : Ent},
    e ∈ entL d po l →
      (∃ s ∈ l, e = ⟨s.nid, po, s.kids.map Shape.nid, d⟩) ∨
      (∃ e2 ∈ entL d po l, e.par = some e2.key ∧ e.key ∈ e2.chs ∧ e.dep = e2.dep + 1) := by
  induction l using forest_ind with
  | h0 => intro d po e h; simp at h
  | h1 i ks r ihks ihr =>
      intro d po e h
      rcases (by simpa using h) with h | h | h
      · exact Or.inl ⟨Shape.mk i ks, by simp, by simp [h, Shape.nid, Shape.kids]⟩
      · rcases ihks h with ⟨s, hs, rfl⟩ | ⟨e2, he2, hpar, hkey, hdep⟩
        · refine Or.inr ⟨⟨i, po, ks.map Shape.nid, d⟩, by simp, by simp [Ent.par], ?_, by simp⟩
          exact List.mem_map_of_mem Shape.nid hs
        · exact Or.inr ⟨e2, by simp [List.mem_append, he2], hpar, hkey, hdep⟩
      · rcases ihr h with ⟨s, hs, rfl⟩ | ⟨e2, he2, hpar, hkey, hdep⟩
        · exact Or.inl ⟨s, by simp [hs], rfl⟩
        · exact Or.inr ⟨e2, by simp [List.mem_append, he2], hpar, hkey, hdep⟩

/-- Every identifier in an entry's child list has its own entry, one level
down. -/
theorem child_linked {l : List Shape} : ∀ {d : Nat} {po : Option Nat} {e : Ent},
    e ∈ entL d po l → ∀ {c : Nat}, c ∈ e.chs →
      ∃ e2 ∈ entL d po l, e2.key = c ∧ e2.par = some e.key ∧ e2.dep = e.dep + 1 := by
  induction l using forest_ind with
  | h0 => intro d po e h; simp at h
  | h1 i ks r ihks ihr =>
      intro d po e h c hc
      rcases (by simpa using h) with h | h | h
      · subst h
        simp only [Ent.chs] at hc
        rcases List.mem_map.mp hc with ⟨s, hs, rfl⟩
        refine ⟨⟨s.nid, some i, s.kids.map Shape.nid, d + 1⟩, ?_, rfl, by simp [Ent.par], by simp⟩
        simp [List.mem_append, head_mem_entL hs]
      · rcases ihks h hc with ⟨e2, he2, h1, h2, h3⟩
        exact ⟨e2, by simp [List.mem_append, he2], h1, h2, h3⟩
      · rcases ihr h hc with ⟨e2, he2, h1, h2, h3⟩
        exact ⟨e2, by simp [List.mem_append, he2], h1, h2, h3⟩

theorem mem_allSub_self {s : Shape} {l : List Shape} (hs : s ∈ l) : s ∈ allSub l := by
  induction l with
  | nil => cases hs
  | cons s0 r ih =>
      obtain ⟨i, ks⟩ := s0
      rcases List.mem_cons.mp hs with h | h
      · subst h; simp
      · simp only [allSub_cons, List.mem_cons, List.mem_append]
        exact Or.inr (Or.inr (ih h))

/-- The entries of a nested shape sit inside the entries of the enclosing
forest as a sublist, at a suitable depth and parent. -/
theorem sub_entries_sublist {l : List Shape} : ∀ {d : Nat} {po : Option Nat} {s : Shape},
    s ∈ allSub l → ∃ d2 po2, List.Sublist (entL d2 po2 [s]) (entL d po l) := by
  induction l using forest_ind with
  | h0 => intro d po s h; simp at h
  | h1 i ks r ihks ihr =>
      intro d po s h
      rcases (by simpa using h) with h | h | h
      · subst h
        refine ⟨d, po, ?_⟩
        simp only [entL_cons, entL_nil, List.append_nil]
        exact List.Sublist.cons₂ _ (List.sublist_append_left _ _)
      · obtain ⟨d2, po2, hsub⟩ := ihks h
        refine ⟨d2, po2, ?_⟩
        rw [entL_cons]
        exact hsub.trans ((List.sublist_append_left _ _).cons _)
      · obtain ⟨d2, po2, hsub⟩ := ihr h
        refine ⟨d2, po2, ?_⟩
        rw [entL_cons]
        exact hsub.trans ((List.sublist_append_right _ _).cons _)

/-! ### The well-formedness predicate `Rep` -/

/-- One entry holds in the node store. -/
def entOkB {D : Type _} (m : Map D) (e : Ent) : Bool :=
  match mfind m e.key with
  | none => false
  | some n => n.id == e.key && n.parent == e.par && n.children == e.chs

theorem entOkB_iff {D : Type _} {m : Map D} {e : Ent} :
    entOkB m e = true ↔
      ∃ n, mfind m e.key = some n ∧ n.id = e.key ∧ n.parent = e.par ∧ n.children = e.chs := by
  cases h : mfind m e.key with
  | none => simp [entOkB, h]
  | some n =>
      simp only [entOkB, h, Bool.and_eq_true, beq_iff_eq]
      constructor
      · rintro ⟨⟨h1, h2⟩, h3⟩; exact ⟨n, rfl, h1, h2, h3⟩
      · rintro ⟨n2, hn2, h1, h2, h3⟩
        obtain rfl : n = n2 := Option.some_inj.mp hn2
        exact ⟨⟨h1, h2⟩, h3⟩

/-- The forest `t` is well formed and its structure is the shape forest
`ss`: the root list is the top-level shape list, every entry demanded by
the shapes holds in the node store, the shapes cover the store exactly
(same key multiset), keys are unique, and all keys are below the
next-identity counter. -/
def Rep {D : Type _} (t : Tree D) (ss : List Shape) : Prop :=
  t.roots = ss.map Shape.nid ∧
  (∀ e ∈ entF ss, entOkB t.nodes e = true) ∧
  List.Perm ((entF ss).map Ent.key) (keys t.nodes) ∧
  (keys t.nodes).Nodup ∧
  (∀ p ∈ t.nodes, p.1 < t.curr_id)

instance {D : Type _} (t : Tree D) (ss : List Shape) : Decidable (Rep t ss) := by
  unfold Rep; infer_instance

namespace Rep

variable {D : Type _} {t : Tree D} {ss : List Shape}

theorem roots_eq (h : Rep t ss) : t.roots = ss.map Shape.nid := h.1

theorem entKeys_nodup (h : Rep t ss) : ((entF ss).map Ent.key).Nodup :=
  h.2.2.2.1.perm h.2.2.1.symm

theorem keys_nodup (h : Rep t ss) : (keys t.nodes).Nodup := h.2.2.2.1

theorem lookup_ent (h : Rep t ss) {e : Ent} (he : e ∈ entF ss) :
    ∃ n, mfind t.nodes e.key = some n ∧ n.id = e.key ∧ n.parent = e.par ∧ n.children = e.chs :=
  entOkB_iff.mp (h.2.1 e he)

/-- Entries with the same key are equal. -/
theorem ent_unique (h : Rep t ss) {e e2 : Ent} (he : e ∈ entF ss) (he2 : e2 ∈ entF ss)
    (hk : e.key = e2.key) : e = e2 :=
  List.inj_on_of_nodup_map h.entKeys_nodup he he2 hk

/-- Every stored node has an entry, and the entry fields agree with the
stored fields. -/
theorem ent_of_mfind (h : Rep t ss) {k : Nat} {n : Node D} (hk : mfind t.nodes k = some n) :
    ∃ e ∈ entF ss, e.key = k ∧ e.par = n.parent ∧ e.chs = n.children ∧ n.id = k := by
  have hmem : k ∈ (entF ss).map Ent.key := h.2.2.1.mem_iff.mpr (mfind_some_mem_keys hk)
  rcases List.mem_map.mp hmem with ⟨e, he, hkey⟩
  rcases h.lookup_ent he with ⟨n2, hn2, h1, h2, h3⟩
  rw [hkey] at hn2
  rw [hk] at hn2
  cases hn2
  exact ⟨e, he, hkey, h2.symm, h3.symm, hkey ▸ h1⟩

theorem curr_id_fresh (h : Rep t ss) : mfind t.nodes t.curr_id = none := by
  rw [mfind_eq_none]
  intro hmem
  rcases List.mem_map.mp hmem with ⟨p, hp, hfst⟩
  exact absurd (hfst ▸ h.2.2.2.2 p hp) (lt_irrefl _)

end Rep

/-! ### List helper lemmas -/

theorem first_occ_split {L : List Nat} {k : Nat} (h : k ∈ L) :
    ∃ A B, L = A ++ k :: B ∧ k ∉ A := by
  induction L with
  | nil => cases h
  | cons a L ih =>
      by_cases ha : a = k
      · exact ⟨[], L, by simp [ha], by simp⟩
      · rcases List.mem_cons.mp h with h1 | h1
        · exact absurd h1.symm ha
        · obtain ⟨A, B, hAB, hk⟩ := ih h1
          refine ⟨a :: A, B, by simp [hAB], ?_⟩
          intro hmem
          rcases List.mem_cons.mp hmem with h2 | h2
          · exact ha h2.symm
          · exact hk h2

theorem findIdx?_first {A B : List Nat} {k : Nat} (hA : k ∉ A) :
    ∀ i, List.findIdx? (fun x => x = k) (A ++ k :: B) i = some (A.length + i) := by
  induction A with
  | nil => intro i; simp [List.findIdx?_cons]
  | cons a A ih =>
      intro i
      have ha : ¬ (a = k) := fun h => hA (by simp [h])
      have hA2 : k ∉ A := fun h => hA (by simp [h])
      simp only [List.cons_append, List.findIdx?_cons, decide_eq_true_eq, if_neg ha]
      rw [ih hA2 (i + 1)]
      congr 1
      simp only [List.length_cons]
      omega

theorem findIdx?_first_zero {A B : List Nat} {k : Nat} (hA : k ∉ A) :
    List.findIdx? (fun x => x = k) (A ++ k :: B) = some A.length := by
  have h := findIdx?_first (B := B) hA 0
  simpa using h

theorem insertIdx_at_len {α : Type _} (A : List α) (x : α) (B : List α) :
    List.insertIdx A.length x (A ++ B) = A ++ x :: B := by
  induction A with
  | nil => simp
  | cons a A ih => simp [List.insertIdx_succ_cons, ih]

theorem eraseIdx_at_len {α : Type _} (A : List α) (x : α) (B : List α) :
    (A ++ x :: B).eraseIdx A.length = A ++ B := by
  induction A with
  | nil => simp
  | cons a A ih => simp [List.eraseIdx_cons_succ, ih]

/-! ### Further shape-derived facts -/

@[simp] theorem flatL_single (s : Shape) :
    flatL [s] = s.nid :: flatL s.kids := by
  obtain ⟨i, ks⟩ := s
  simp [Shape.nid, Shape.kids]

theorem top_ids_sublist (l : List Shape) :
    List.Sublist (l.map Shape.nid) (flatL l) := by
  induction l using forest_ind with
  | h0 => simp
  | h1 i ks r ihks ihr =>
      simp only [List.map_cons, flatL_cons, Shape.nid]
      exact (ihr.trans (List.sublist_append_right _ _)).cons₂ _

/-- Every entry of a shape list is the head entry of one of its nested
shapes. -/
theorem ent_from_shape {l : List Shape} : ∀ {d : Nat} {po : Option Nat} {e : Ent},
    e ∈ entL d po l → ∃ s ∈ allSub l, e.key = s.nid ∧ e.chs = s.kids.map Shape.nid := by
  induction l using forest_ind with
  | h0 => intro d po e h; simp at h
  | h1 i ks r ihks ihr =>
      intro d po e h
      rcases (by simpa using h) with h | h | h
      · exact ⟨Shape.mk i ks, by simp, by simp [h, Shape.nid], by simp [h, Shape.kids]⟩
      · obtain ⟨s, hs, h1, h2⟩ := ihks h
        exact ⟨s, by simp [List.mem_append, hs], h1, h2⟩
      · obtain ⟨s, hs, h1, h2⟩ := ihr h
        exact ⟨s, by simp [List.mem_append, hs], h1, h2⟩

theorem map_key_entF (ss : List Shape) : (entF ss).map Ent.key = flatL ss :=
  map_key_entL ss 0 none

namespace Rep

variable {D : Type _} {t : Tree D} {ss : List Shape}

theorem flat_nodup (h : Rep t ss) : (flatL ss).Nodup := by
  have h2 := h.entKeys_nodup
  rwa [map_key_entF] at h2

theorem flat_perm_keys (h : Rep t ss) : List.Perm (flatL ss) (keys t.nodes) := by
  have h2 := h.2.2.1
  rwa [map_key_entF] at h2

theorem roots_nodup (h : Rep t ss) : t.roots.Nodup := by
  rw [h.roots_eq]
  exact ((top_ids_sublist ss).nodup h.flat_nodup)

/-- The identifier list of a nested shape, its whole subtree included, has
no duplicates. -/
theorem sub_flat_nodup (h : Rep t ss) {s : Shape} (hs : s ∈ allSub ss) :
    (flatL [s]).Nodup := by
  obtain ⟨d2, po2, hsub⟩ := @sub_entries_sublist ss 0 none s hs
  have hmap := hsub.map Ent.key
  rw [map_key_entL, map_key_entL] at hmap
  exact hmap.nodup h.flat_nodup

/-- A child list is duplicate-free and does not contain its own key. -/
theorem chs_nodup (h : Rep t ss) {e : Ent} (he : e ∈ entF ss) :
    e.chs.Nodup ∧ e.key ∉ e.chs := by
  obtain ⟨s, hs, hkey, hchs⟩ := ent_from_shape he
  have hnodup := h.sub_flat_nodup hs
  rw [flatL_single] at hnodup
  have hkid : List.Sublist (s.kids.map Shape.nid) (flatL s.kids) := top_ids_sublist _
  constructor
  · rw [hchs]
    exact hkid.nodup (List.nodup_cons.mp hnodup).2
  · rw [hchs, hkey]
    intro hmem
    exact (List.nodup_cons.mp hnodup).1 (hkid.mem hmem)

/-- Children of an entry are stored keys, and their stored parent is the
entry's key. -/
theorem child_node (h : Rep t ss) {e : Ent} (he : e ∈ entF ss) {c : Nat} (hc : c ∈ e.chs) :
    ∃ n, mfind t.nodes c = some n ∧ n.parent = some e.key := by
  obtain ⟨e2, he2, hk, hp, _⟩ := child_linked he hc
  obtain ⟨n, hn, _, hpar, _⟩ := h.lookup_ent he2
  exact ⟨n, hk ▸ hn, by rw [hpar, hp]⟩

/-- An entry whose parent field is set has a parent entry containing it,
one depth level up. -/
theorem dep_succ (h : Rep t ss) {e : Ent} (he : e ∈ entF ss) {q : Nat}
    (hq : e.par = some q) :
    ∃ e2 ∈ entF ss, e2.key = q ∧ e.key ∈ e2.chs ∧ e.dep = e2.dep + 1 := by
  rcases top_or_linked he with ⟨s, _, rfl⟩ | ⟨e2, he2, hpar, hkey, hdep⟩
  · simp [Ent.par] at hq
  · refine ⟨e2, he2, ?_, hkey, hdep⟩
    rw [hpar] at hq
    exact Option.some_inj.mp hq

/-- An entry whose parent field is empty is a root. -/
theorem par_none_root (h : Rep t ss) {e : Ent} (he : e ∈ entF ss) (hp : e.par = none) :
    e.key ∈ t.roots := by
  rcases top_or_linked he with ⟨s, hs, rfl⟩ | ⟨e2, _, hpar, _, _⟩
  · rw [h.roots_eq]
    exact List.mem_map_of_mem Shape.nid hs
  · rw [hpar] at hp; cases hp

/-- Membership in a child list determines the parent. -/
theorem parent_unique (h : Rep t ss) {e e2 : Ent} (he : e ∈ entF ss) (he2 : e2 ∈ entF ss)
    (hc : e.key ∈ e2.chs) : e.par = some e2.key ∧ e.dep = e2.dep + 1 := by
  obtain ⟨e3, he3, hk, hp, hd⟩ := child_linked he2 hc
  have : e3 = e := h.ent_unique he3 he hk
  subst this
  exact ⟨hp, hd⟩

/-- No entry is its own parent. -/
theorem no_self_parent (h : Rep t ss) {e : Ent} (he : e ∈ entF ss) :
    e.par ≠ some e.key := by
  intro hp
  obtain ⟨e2, he2, hk, _, hd⟩ := h.dep_succ he hp
  have : e2 = e := h.ent_unique he2 he hk
  subst this
  omega

/-- The sibling list the code resolves for a stored node: the root list
for a root, the parent's child list otherwise; the node occurs in it
exactly once. -/
theorem sib_decomp (h : Rep t ss) {k : Nat} {n : Node D}
    (hk : mfind t.nodes k = some n) :
    ∃ L A B, L = A ++ k :: B ∧ k ∉ A ∧ k ∉ B ∧ L.Nodup ∧
      ((n.parent = none ∧ L = t.roots) ∨
       (∃ p m, n.parent = some p ∧ mfind t.nodes p = some m ∧ L = m.children ∧ p ≠ k)) := by
  obtain ⟨e, he, hkey, hpar, hchs, _⟩ := h.ent_of_mfind hk
  cases hp : n.parent with
  | none =>
      have hroot : k ∈ t.roots := hkey ▸ h.par_none_root he (by rw [hpar, hp])
      obtain ⟨A, B, hAB, hA⟩ := first_occ_split hroot
      have hnodup := h.roots_nodup
      rw [hAB] at hnodup
      have hB : k ∉ B := by
        have := (List.nodup_append.mp hnodup).2.1
        exact (List.nodup_cons.mp this).1
      exact ⟨t.roots, A, B, hAB, hA, hB, hAB ▸ hnodup, Or.inl ⟨rfl, rfl⟩⟩
  | some p =>
      obtain ⟨e2, he2, hk2, hkmem, _⟩ := h.dep_succ he (by rw [hpar, hp])
      obtain ⟨m, hm, _, hmpar, hmchs⟩ := h.lookup_ent he2
      have hkm : k ∈ m.children := by rw [hmchs, ← hkey]; exact hkmem
      obtain ⟨A, B, hAB, hA⟩ := first_occ_split hkm
      have hnodup : m.children.Nodup := hmchs ▸ (h.chs_nodup he2).1
      have hB : k ∉ B := by
        rw [hAB] at hnodup
        have := (List.nodup_append.mp hnodup).2.1
        exact (List.nodup_cons.mp this).1
      have hpk : p ≠ k := by
        intro hpk
        have he2e : e2 = e := h.ent_unique he2 he (by rw [hk2, hkey]; exact hpk)
        rw [he2e] at hkmem
        exact (h.chs_nodup he).2 hkmem
      exact ⟨m.children, A, B, hAB, hA, hB, hnodup,
        Or.inr ⟨p, m, rfl, by rw [← hk2]; exact hm, rfl, hpk⟩⟩

/-- Children of a stored node are stored keys. -/
theorem child_mem_keys (h : Rep t ss) {k : Nat} {n : Node D}
    (hk : mfind t.nodes k = some n) {c : Nat} (hc : c ∈ n.children) : c ∈ keys t.nodes := by
  obtain ⟨e, he, hkey, hpar, hchs, _⟩ := h.ent_of_mfind hk
  obtain ⟨n2, hn2, _⟩ := h.child_node he (by rw [hchs]; exact hc)
  exact mfind_some_mem_keys hn2

/-- Root identifiers are stored keys. -/
theorem root_mem_keys (h : Rep t ss) {r : Nat} (hr : r ∈ t.roots) : r ∈ keys t.nodes := by
  rw [h.roots_eq] at hr
  have : r ∈ flatL ss := (top_ids_sublist ss).mem hr
  exact h.flat_perm_keys.mem_iff.mp this

end Rep

/-! ### Evaluation of the sibling queries on a decomposed sibling list -/

theorem drop_len_succ {α : Type _} (A : List α) (x : α) (B : List α) :
    (A ++ x :: B).drop (A.length + 1) = B := by
  have h : A ++ x :: B = (A ++ [x]) ++ B := by simp
  rw [h, show A.length + 1 = (A ++ [x]).length by simp, List.drop_left]

theorem getD_pred_getLast? (A : List α) (d : α) (hA : A ≠ []) :
    A.getD (A.length - 1) d = A.getLast hA := by
  rw [List.getD_eq_getElem A d (Nat.sub_lt (List.length_pos.mpr hA) Nat.one_pos),
    List.getLast_eq_getElem]

namespace Tree

variable {D : Type _}

/-- Computation of all sibling views for a node whose parent exists and
lists it: everything is determined by the split of the parent's child list
at the node's first occurrence. -/
theorem sib_eval_parent {t : Tree D} {k p : Nat} {n m : Node D} {A B : List Nat}
    (hk : mfind t.nodes k = some n) (hp : n.parent = some p)
    (hm : mfind t.nodes p = some m) (hc : m.children = A ++ k :: B) (hA : k ∉ A) :
    t.siblings k = PRes.ok (some m.children) ∧
    t.next_siblings k = PRes.ok B ∧
    t.prev_siblings k = PRes.ok A ∧
    t.next_sibling k = PRes.ok B.head? ∧
    t.prev_sibling k = PRes.ok A.getLast? := by
  have hsib : t.siblings k = PRes.ok (some m.children) := by
    simp [siblings, hk, hp, hm]
  have hidx2 : List.findIdx? (fun x => x = k) (A ++ k :: B) = some A.length :=
    findIdx?_first_zero hA
  have hnext : t.next_siblings k = PRes.ok B := by
    simp only [next_siblings, hsib, hc, hidx2]
    rw [drop_len_succ]
  have hprev : t.prev_siblings k = PRes.ok A := by
    simp only [prev_siblings, hsib, hc, hidx2]
    rw [List.take_left]
  refine ⟨hsib, hnext, hprev, ?_, ?_⟩
  · simp [next_sibling, hnext]
  · simp only [prev_sibling, hk, hp, hm, hc, hidx2]
    by_cases hAe : A = []
    · subst hAe; simp
    · have hlen : 0 < A.length := List.length_pos.mpr hAe
      rw [if_pos hlen, List.getD_append _ _ _ _ (by omega), getD_pred_getLast? A 0 hAe,
        List.getLast?_eq_getLast A hAe]

/-- The same computation for a root node: the sibling list is the root
list. -/
theorem sib_eval_root {t : Tree D} {k : Nat} {n : Node D} {A B : List Nat}
    (hk : mfind t.nodes k = some n) (hp : n.parent = none)
    (hc : t.roots = A ++ k :: B) (hA : k ∉ A) :
    t.siblings k = PRes.ok (some t.roots) ∧
    t.next_siblings k = PRes.ok B ∧
    t.prev_siblings k = PRes.ok A ∧
    t.next_sibling k = PRes.ok B.head? ∧
    t.prev_sibling k = PRes.ok A.getLast? := by
  have hsib : t.siblings k = PRes.ok (some t.roots) := by
    simp [siblings, hk, hp]
  have hidx2 : List.findIdx? (fun x => x = k) (A ++ k :: B) = some A.length :=
    findIdx?_first_zero hA
  have hnext : t.next_siblings k = PRes.ok B := by
    simp only [next_siblings, hsib, hc, hidx2]
    rw [drop_len_succ]
  have hprev : t.prev_siblings k = PRes.ok A := by
    simp only [prev_siblings, hsib, hc, hidx2]
    rw [List.take_left]
  refine ⟨hsib, hnext, hprev, ?_, ?_⟩
  · simp [next_sibling, hnext]
  · simp only [prev_sibling, hk, hp, hc, hidx2]
    by_cases hAe : A = []
    · subst hAe; simp
    · have hlen : 0 < A.length := List.length_pos.mpr hAe
      rw [if_pos hlen, List.getD_append _ _ _ _ (by omega), getD_pred_getLast? A 0 hAe,
        List.getLast?_eq_getLast A hAe]

end Tree

/-! ### Specification of `add_sibling` (claim C3) -/

/-- What C3 asserts of one `add_sibling` call: a missing anchor fails with
NotFound and leaves the forest untouched; a root anchor appends the new
node at the end of the root list with the position ignored; an anchored
insertion targets the parent's child list immediately before or after the
anchor, preserves every other child in order, leaves the other nodes and
the root list untouched, and for `Before` the new node's next sibling is
the anchor. -/
def AddSiblingSpec {D : Type _} (t : Tree D) (k : Nat) (v : D) (pos : Pos) : Prop :=
  (mfind t.nodes k = none →
      t.add_sibling k v pos = PRes.ok (Except.error "add_sibling: node does not exist!", t)) ∧
  (∀ n, mfind t.nodes k = some n → n.parent = none →
      t.add_sibling k v pos = PRes.ok (Except.ok t.curr_id, (t.add_root v).2) ∧
      (t.add_root v).2.roots = t.roots ++ [t.curr_id]) ∧
  (∀ n p, mfind t.nodes k = some n → n.parent = some p →
      ∃ t2 m A B, mfind t.nodes p = some m ∧ m.children = A ++ k :: B ∧ k ∉ A ∧
        t.add_sibling k v pos = PRes.ok (Except.ok t.curr_id, t2) ∧
        t2.children p = (match pos with
          | Pos.Before => A ++ t.curr_id :: k :: B
          | Pos.After => A ++ k :: t.curr_id :: B) ∧
        t2.roots = t.roots ∧
        (∀ q, q ≠ p → q ≠ t.curr_id → mfind t2.nodes q = mfind t.nodes q) ∧
        (pos = Pos.Before → t2.next_sibling t.curr_id = PRes.ok (some k)))

/-- C3: on a well-formed forest, `add_sibling` inserts immediately before
or after an anchored sibling preserving the other children, appends at the
end of the root list ignoring the position when the anchor is a root, and
fails with NotFound leaving the forest unchanged when the anchor is
absent; after a `Before` insertion the new node's next sibling is the
anchor. -/
theorem C3_add_sibling_spec {D : Type _} (t : Tree D) (ss : List Shape) (k : Nat) (v : D)
    (pos : Pos) (h : Rep t ss) : AddSiblingSpec t k v pos := by
  refine ⟨?_, ?_, ?_⟩
  · intro hk
    simp [Tree.add_sibling, hk]
  · intro n hk hpn
    constructor
    · simp [Tree.add_sibling, hk, hpn, Tree.add_root]
    · rfl
  · intro n p hk hp
    obtain ⟨L, A, B, hLAB, hA, hB, hnodup, hcase⟩ := h.sib_decomp hk
    rcases hcase with ⟨hpn, _⟩ | ⟨p2, m, hp2, hm, hLc, hpk⟩
    · rw [hp] at hpn; cases hpn
    · rw [hp] at hp2
      obtain rfl : p = p2 := Option.some_inj.mp hp2
      have hmc : m.children = A ++ k :: B := by rw [← hLc, hLAB]
      have hfresh : mfind t.nodes t.curr_id = none := h.curr_id_fresh
      have hpnew : p ≠ t.curr_id := by
        intro he
        rw [← he] at hfresh
        rw [hfresh] at hm
        cases hm
      have hknew : k ≠ t.curr_id := by
        intro he
        rw [← he] at hfresh
        rw [hfresh] at hk
        cases hk
      have hAnew : t.curr_id ∉ A := by
        intro hmem
        have hmemc : t.curr_id ∈ m.children := by
          rw [hmc]
          exact List.mem_append_left _ hmem
        have := h.child_mem_keys hm hmemc
        rw [mfind_eq_none] at hfresh
        exact hfresh this
      have hfind1p :
          mfind (mset t.nodes t.curr_id (⟨v, some p, [], t.curr_id⟩ : Node D)) p = some m := by
        rw [mfind_mset_ne _ _ hpnew]; exact hm
      have hfind1new :
          mfind (mset t.nodes t.curr_id (⟨v, some p, [], t.curr_id⟩ : Node D)) t.curr_id
            = some ⟨v, some p, [], t.curr_id⟩ := mfind_mset_self _ _ _
      have hidx : List.findIdx? (fun x => x = k) m.children = some A.length := by
        rw [hmc]; exact findIdx?_first_zero hA
      have hinsB : List.insertIdx A.length t.curr_id m.children = A ++ t.curr_id :: k :: B := by
        rw [hmc]; exact insertIdx_at_len A t.curr_id (k :: B)
      have hinsA : List.insertIdx (A.length + 1) t.curr_id m.children
          = A ++ k :: t.curr_id :: B := by
        rw [hmc, show A ++ k :: B = (A ++ [k]) ++ B by simp,
          show A.length + 1 = (A ++ [k]).length by simp,
          insertIdx_at_len (A ++ [k]) t.curr_id B]
        simp
      cases pos with
      | Before =>
          refine ⟨⟨mset (mset t.nodes t.curr_id ⟨v, some p, [], t.curr_id⟩) p
              ({ m with children := A ++ t.curr_id :: k :: B }), t.roots,
              (t.curr_id + 1) % U32MOD⟩, m, A, B, hm, hmc, hA, ?_, ?_, rfl, ?_, ?_⟩
          · simp only [Tree.add_sibling, hk, hp, Tree.children, hfind1p, hidx,
              Nat.add_zero, hinsB]
          · simp only [Tree.children, mfind_mset_self]
          · intro q hqp hqnew
            simp only
            rw [mfind_mset_ne _ _ hqp, mfind_mset_ne _ _ hqnew]
          · intro _
            have hfind2new : mfind (mset (mset t.nodes t.curr_id
                (⟨v, some p, [], t.curr_id⟩ : Node D)) p
                ({ m with children := A ++ t.curr_id :: k :: B })) t.curr_id
                = some ⟨v, some p, [], t.curr_id⟩ := by
              rw [mfind_mset_ne _ _ (fun he => hpnew he.symm)]; exact hfind1new
            have hfind2p : mfind (mset (mset t.nodes t.curr_id
                (⟨v, some p, [], t.curr_id⟩ : Node D)) p
                ({ m with children := A ++ t.curr_id :: k :: B })) p
                = some ({ m with children := A ++ t.curr_id :: k :: B }) :=
              mfind_mset_self _ _ _
            have hchs2 : ({ m with children := A ++ t.curr_id :: k :: B } : Node D).children
                = A ++ t.curr_id :: (k :: B) := rfl
            have heval := Tree.sib_eval_parent
              (t := ⟨mset (mset t.nodes t.curr_id ⟨v, some p, [], t.curr_id⟩) p
                ({ m with children := A ++ t.curr_id :: k :: B }), t.roots,
                (t.curr_id + 1) % U32MOD⟩)
              hfind2new rfl hfind2p hchs2 hAnew
            rw [heval.2.2.2.1]
            simp

      | After =>
          refine ⟨⟨mset (mset t.nodes t.curr_id ⟨v, some p, [], t.curr_id⟩) p
              ({ m with children := A ++ k :: t.curr_id :: B }), t.roots,
              (t.curr_id + 1) % U32MOD⟩, m, A, B, hm, hmc, hA, ?_, ?_, rfl, ?_, ?_⟩
          · simp only [Tree.add_sibling, hk, hp, Tree.children, hfind1p, hidx, hinsA]
          · simp only [Tree.children, mfind_mset_self]
          · intro q hqp hqnew
            simp only
            rw [mfind_mset_ne _ _ hqp, mfind_mset_ne _ _ hqnew]
          · intro hcon
            cases hcon

/-! ### A concrete well-formed forest used by the witnesses -/

/-- Example forest: roots `0` (children `1`, `2`) and `3` (child `4`). -/
def exT : Tree Nat :=
  ⟨[(0, ⟨10, none, [1, 2], 0⟩), (1, ⟨11, some 0, [], 1⟩), (2, ⟨12, some 0, [], 2⟩),
    (3, ⟨13, none, [4], 3⟩), (4, ⟨14, some 3, [], 4⟩)], [0, 3], 5⟩

/-- The shape forest of `exT`. -/
def exSS : List Shape :=
  [Shape.mk 0 [Shape.mk 1 [], Shape.mk 2 []], Shape.mk 3 [Shape.mk 4 []]]

theorem entF_ex : entF exSS =
    [⟨0, none, [1, 2], 0⟩, ⟨1, some 0, [], 1⟩, ⟨2, some 0, [], 1⟩,
     ⟨3, none, [4], 0⟩, ⟨4, some 3, [], 1⟩] := by
  simp [entF, exSS, Shape.nid]

theorem rep_ex : Rep exT exSS := by
  rw [Rep, entF_ex]
  decide

/-- Witness for C3 at the example forest, anchor `1`, `Before`. -/
theorem C3_witness : Rep exT exSS ∧ AddSiblingSpec exT 1 99 Pos.Before :=
  ⟨rep_ex, C3_add_sibling_spec exT exSS 1 99 Pos.Before rep_ex⟩

/-! ### Claim C7: behaviour on an absent identifier -/

/-- What C7 asserts at an absent identifier: NotFound results with the
forest unchanged from the mutators, empty views or `none` from the
queries, and an explicit not-found result from the accessors. -/
def AbsentIdSpec {D : Type _} (t : Tree D) (k : Nat) (v : D) (pos : Pos) : Prop :=
  t.push_child k v = (Except.error "push_child: node does not exist!", t) ∧
  t.add_sibling k v pos = PRes.ok (Except.error "add_sibling: node does not exist!", t) ∧
  t.children k = [] ∧
  t.parent k = none ∧
  t.next_sibling k = PRes.ok none ∧
  t.prev_sibling k = PRes.ok none ∧
  t.next_siblings k = PRes.ok [] ∧
  t.prev_siblings k = PRes.ok [] ∧
  t.get_node k = none ∧
  t.get_mut_node k = none

/-- C7: every operation taking a caller-supplied identifier that is absent
returns its NotFound outcome and leaves the forest unchanged; the sibling
and child views are empty, `parent` and the accessors return `none`. -/
theorem C7_absent_id {D : Type _} (t : Tree D) (k : Nat) (v : D) (pos : Pos)
    (hk : mfind t.nodes k = none) : AbsentIdSpec t k v pos := by
  refine ⟨?_, ?_, ?_, ?_, ?_, ?_, ?_, ?_, ?_, ?_⟩ <;>
    simp [Tree.push_child, Tree.add_sibling, Tree.children, Tree.parent,
      Tree.next_sibling, Tree.prev_sibling, Tree.next_siblings, Tree.prev_siblings,
      Tree.siblings, Tree.get_node, Tree.get_mut_node, hk]

/-! ### Lemmas on the merge and delete building blocks -/

namespace Tree

variable {D : Type _}

theorem reparentAll_not_mem (m : Map D) (cs : List Nat) (pid : Nat) {q : Nat}
    (hq : q ∉ cs) : mfind (reparentAll m cs pid) q = mfind m q := by
  induction cs generalizing m with
  | nil => simp [reparentAll]
  | cons c cs ih =>
      have hqc : q ≠ c := fun he => hq (by simp [he])
      have hqcs : q ∉ cs := fun he => hq (by simp [he])
      simp only [reparentAll, List.foldl_cons]
      cases hc : mfind m c with
      | none =>
          have := ih (m := m) hqcs
          simpa [reparentAll, hc] using this
      | some nc =>
          have := ih (m := mset m c ({ nc with parent := some pid })) hqcs
          simp only [reparentAll] at this
          rw [this, mfind_mset_ne _ _ hqc]

theorem reparentAll_mem (m : Map D) (cs : List Nat) (pid : Nat) :
    ∀ {c : Nat}, c ∈ cs → cs.Nodup → ∀ {nc : Node D}, mfind m c = some nc →
      mfind (reparentAll m cs pid) c = some { nc with parent := some pid } := by
  induction cs generalizing m with
  | nil => intro c hc; cases hc
  | cons c0 cs ih =>
      intro c hc hnodup nc hnc
      rcases List.mem_cons.mp hc with he | he
      · subst he
        have hrest : c ∉ cs := (List.nodup_cons.mp hnodup).1
        simp only [reparentAll, List.foldl_cons, hnc]
        have hfr := reparentAll_not_mem (mset m c ({ nc with parent := some pid })) cs pid hrest
        simp only [reparentAll] at hfr
        rw [hfr, mfind_mset_self]
      · have hc0 : c ≠ c0 := by
          intro hcc
          subst hcc
          exact (List.nodup_cons.mp hnodup).1 he
        simp only [reparentAll, List.foldl_cons]
        cases hc0m : mfind m c0 with
        | none =>
            exact ih m he (List.nodup_cons.mp hnodup).2 hnc
        | some n0 =>
            refine ih _ he (List.nodup_cons.mp hnodup).2 ?_
            rw [mfind_mset_ne _ _ hc0]
            exact hnc

theorem keys_reparentAll (m : Map D) (cs : List Nat) (pid : Nat) :
    keys (reparentAll m cs pid) = keys m := by
  induction cs generalizing m with
  | nil => simp [reparentAll]
  | cons c cs ih =>
      simp only [reparentAll, List.foldl_cons]
      cases hc : mfind m c with
      | none =>
          have := ih (m := m)
          simpa [reparentAll] using this
      | some nc =>
          have h1 := ih (m := mset m c ({ nc with parent := some pid }))
          simp only [reparentAll] at h1
          rw [h1, keys_mset_mem _ _ _ (mfind_some_mem_keys hc)]

@[simp] theorem delRecF_zero (m : Map D) (id : Nat) : delRecF 0 m id = m := rfl

theorem delRecF_succ (fuel : Nat) (m : Map D) (id : Nat) :
    delRecF (fuel + 1) m id =
      match mfind m id with
      | none => m
      | some node => node.children.foldl (fun acc c => delRecF fuel acc c) (merase m id) := rfl

/-- Evaluation of `delete_node` when the deleted node is a root. -/
theorem delete_node_eval_root {t : Tree D} {id : Nat} {nd : Node D} {m1 : Map D}
    (h1 : mfind t.nodes id = some nd) (h2 : nd.parent = none)
    (hm : delRecF t.nodes.length t.nodes id = m1) :
    t.delete_node id = PRes.ok { t with nodes := m1, roots := t.roots.erase id } := by
  simp [delete_node, h1, h2, hm]

/-- Evaluation of `delete_node` when the deleted node has a live parent
listing it at index `i`. -/
theorem delete_node_eval_parent {t : Tree D} {id p : Nat} {nd mp : Node D} {m1 : Map D}
    {i : Nat} {newchs : List Nat}
    (h1 : mfind t.nodes id = some nd) (h2 : nd.parent = some p)
    (hm : delRecF t.nodes.length t.nodes id = m1)
    (h3 : mfind m1 p = some mp)
    (hidx : List.findIdx? (fun x => x = id) mp.children = some i)
    (her : mp.children.eraseIdx i = newchs) :
    t.delete_node id = PRes.ok { t with nodes := mset m1 p ({ mp with children := newchs }) } := by
  simp [delete_node, h1, h2, hm, h3, hidx, her]

end Tree

/-! ### More structural facts needed for sibling resolution -/

namespace Rep

variable {D : Type _} {t : Tree D} {ss : List Shape}

/-- Every root identifier stores a parentless node. -/
theorem root_node (h : Rep t ss) {r : Nat} (hr : r ∈ t.roots) :
    ∃ nr, mfind t.nodes r = some nr ∧ nr.parent = none := by
  rw [h.roots_eq] at hr
  rcases List.mem_map.mp hr with ⟨s0, hs0, hnid⟩
  have hent := head_mem_entL hs0 0 none
  obtain ⟨nr, hnr, _, hpar, _⟩ := h.lookup_ent (e := ⟨s0.nid, none, s0.kids.map Shape.nid, 0⟩) hent
  exact ⟨nr, by rw [← hnid]; exact hnr, hpar⟩

/-- A member of a node's resolved sibling list is stored and shares the
node's parent. -/
theorem sibling_node (h : Rep t ss) {k : Nat} {n : Node D} {L : List Nat}
    (hcase : (n.parent = none ∧ L = t.roots) ∨
      (∃ p m, n.parent = some p ∧ mfind t.nodes p = some m ∧ L = m.children ∧ p ≠ k))
    {s : Nat} (hsL : s ∈ L) :
    ∃ ns, mfind t.nodes s = some ns ∧ ns.parent = n.parent := by
  rcases hcase with ⟨hpn, hL⟩ | ⟨p, m, hpn, hm, hL, _⟩
  · subst hL
    obtain ⟨ns, hns, hnsp⟩ := h.root_node hsL
    exact ⟨ns, hns, by rw [hnsp, hpn]⟩
  · subst hL
    obtain ⟨ep, hep, hepk, heppar, hepchs, _⟩ := h.ent_of_mfind hm
    obtain ⟨ns, hns, hnsp⟩ := h.child_node hep (by rw [hepchs]; exact hsL)
    exact ⟨ns, hns, by rw [hnsp, hepk, hpn]⟩

end Rep

/-- On an absent identifier both sibling queries return `ok none`. -/
theorem sib_queries_absent {D : Type _} {t : Tree D} {k : Nat}
    (hk : mfind t.nodes k = none) :
    t.next_sibling k = PRes.ok none ∧ t.prev_sibling k = PRes.ok none := by
  constructor
  · simp [Tree.next_sibling, Tree.next_siblings, Tree.siblings, hk]
  · simp [Tree.prev_sibling, hk]

/-! ### Characterization of `merge_sibling` -/

/-- The sibling `merge_sibling` resolves first (src/tree.rs lines
176-179). -/
def sibResolve {D : Type _} (t : Tree D) (k : Nat) (pos : Pos) : PRes (Option Nat) :=
  match pos with
  | Pos.After => t.next_sibling k
  | Pos.Before => t.prev_sibling k

def mergeKids (pos : Pos) (own sib : List Nat) : List Nat :=
  match pos with
  | Pos.After => own ++ sib
  | Pos.Before => sib ++ own

/-- The facts holding after a merge that resolved sibling `s` of node `k`:
one node fewer, `s` gone, `s`'s former children appended or prepended onto
`k`'s child list and reparented onto `k`, `s` detached from the root list
or from its parent's child list with the order of the remaining entries
preserved, and every unrelated node untouched. -/
def MergedFacts {D : Type _} (t t2 : Tree D) (k s : Nat) (n ns : Node D) (pos : Pos) : Prop :=
  t2.nodes.length + 1 = t.nodes.length ∧
  t2.curr_id = t.curr_id ∧
  mfind t2.nodes s = none ∧
  (∃ n2, mfind t2.nodes k = some n2 ∧
    n2.children = mergeKids pos n.children ns.children ∧
    n2.value = n.value ∧ n2.parent = n.parent) ∧
  (∀ c ∈ ns.children, ∃ nc nc2, mfind t.nodes c = some nc ∧ mfind t2.nodes c = some nc2 ∧
    nc2.parent = some k ∧ nc2.children = nc.children ∧ nc2.value = nc.value) ∧
  (n.parent = none → t2.roots = t.roots.erase s) ∧
  (∀ p, n.parent = some p → t2.roots = t.roots ∧
    ∃ mp mp2, mfind t.nodes p = some mp ∧ mfind t2.nodes p = some mp2 ∧
      mp2.children = mp.children.erase s ∧ mp2.value = mp.value ∧ mp2.parent = mp.parent) ∧
  (∀ q, q ≠ k → q ≠ s → q ∉ ns.children → n.parent ≠ some q →
    mfind t2.nodes q = mfind t.nodes q)

theorem merge_core {D : Type _} {t : Tree D} {ss : List Shape} {k s : Nat}
    {n ns : Node D} (pos : Pos) (h : Rep t ss)
    (hk : mfind t.nodes k = some n) (hs : mfind t.nodes s = some ns)
    (hsk : s ≠ k) (hpar : ns.parent = n.parent)
    (hres : sibResolve t k pos = PRes.ok (some s)) :
    ∃ t2, t.merge_sibling k pos = PRes.ok t2 ∧ MergedFacts t t2 k s n ns pos := by
  obtain ⟨ek, hek, hekk, hekp, hekc, _⟩ := h.ent_of_mfind hk
  obtain ⟨es, hes, hesk, hesp, hesc, _⟩ := h.ent_of_mfind hs
  -- structural facts about the child list of s
  have hcs_nodup : ns.children.Nodup := by
    have h1 := (h.chs_nodup hes).1
    rwa [hesc] at h1
  have hscs : s ∉ ns.children := by
    have h1 := (h.chs_nodup hes).2
    rw [hesk, hesc] at h1
    exact h1
  have hkcs : k ∉ ns.children := by
    intro hmem
    have hmem2 : ek.key ∈ es.chs := by rw [hekk, hesc]; exact hmem
    obtain ⟨hp1, _⟩ := h.parent_unique hek hes hmem2
    rw [hekp, hesk] at hp1
    have h2 : es.par = some es.key := by
      rw [hesp, hpar, hp1, hesk]
    exact h.no_self_parent hes h2
  have hchild : ∀ c ∈ ns.children, ∃ nc, mfind t.nodes c = some nc := by
    intro c hc
    obtain ⟨nc, hnc, _⟩ := h.child_node hes (by rw [hesc]; exact hc)
    exact ⟨nc, hnc⟩
  -- the three successive map updates of merge_sibling
  have hm1k : mfind (Tree.reparentAll t.nodes ns.children k) k = some n :=
    (Tree.reparentAll_not_mem _ _ _ hkcs).trans hk
  have hm1s : mfind (Tree.reparentAll t.nodes ns.children k) s = some ns :=
    (Tree.reparentAll_not_mem _ _ _ hscs).trans hs
  set newkids : List Nat := mergeKids pos n.children ns.children with hnewkids
  set nk : Node D := { n with children := newkids } with hnk
  set nodes2 : Map D := mset (Tree.reparentAll t.nodes ns.children k) k nk with hnodes2
  have h2s : mfind nodes2 s = some ns := by
    rw [hnodes2, mfind_mset_ne _ _ hsk, hm1s]
  set ns0 : Node D := { ns with children := [] } with hns0
  set nodes3 : Map D := mset nodes2 s ns0 with hnodes3
  have h3s : mfind nodes3 s = some ns0 := by rw [hnodes3]; exact mfind_mset_self _ _ _
  have h3k : mfind nodes3 k = some nk := by
    rw [hnodes3, mfind_mset_ne _ _ (fun he => hsk he.symm), hnodes2]
    exact mfind_mset_self _ _ _
  -- keys are preserved by the three updates
  have hkeys3 : keys nodes3 = keys t.nodes := by
    rw [hnodes3, hnodes2]
    rw [keys_mset_mem, keys_mset_mem, Tree.keys_reparentAll]
    · rw [Tree.keys_reparentAll]
      exact mfind_some_mem_keys hk
    · exact mfind_some_mem_keys h2s
  have hkeys3nodup : (keys nodes3).Nodup := by rw [hkeys3]; exact h.keys_nodup
  -- frame through the three updates
  have h3frame : ∀ q, q ≠ k → q ≠ s → q ∉ ns.children →
      mfind nodes3 q = mfind t.nodes q := by
    intro q hqk hqs hqcs
    rw [hnodes3, mfind_mset_ne _ _ hqs, hnodes2, mfind_mset_ne _ _ hqk]
    exact Tree.reparentAll_not_mem _ _ _ hqcs
  have h3child : ∀ c ∈ ns.children, ∃ nc, mfind t.nodes c = some nc ∧
      mfind nodes3 c = some ({ nc with parent := some k }) := by
    intro c hc
    obtain ⟨nc, hnc⟩ := hchild c hc
    refine ⟨nc, hnc, ?_⟩
    have hck : c ≠ k := fun he => hkcs (he ▸ hc)
    have hcs2 : c ≠ s := fun he => hscs (he ▸ hc)
    rw [hnodes3, mfind_mset_ne _ _ hcs2, hnodes2, mfind_mset_ne _ _ hck]
    exact Tree.reparentAll_mem _ _ _ hc hcs_nodup hnc
  -- the delete of the now childless sibling
  have hlen3 : nodes3.length = t.nodes.length := by
    have := congrArg List.length hkeys3
    simpa [keys] using this
  have hspos : s ∈ keys nodes3 := mfind_some_mem_keys h3s
  have hlenpos : 0 < nodes3.length := by
    cases he : nodes3 with
    | nil => rw [he] at hspos; simp [keys] at hspos
    | cons a l => simp [he]
  have hdel : Tree.delRecF nodes3.length nodes3 s = merase nodes3 s := by
    obtain ⟨f, hf⟩ : ∃ f, nodes3.length = f + 1 := ⟨nodes3.length - 1, by omega⟩
    rw [hf, Tree.delRecF_succ, h3s]
    simp [hns0]
  have hdels : mfind (merase nodes3 s) s = none := mfind_merase_self hkeys3nodup s
  have hdellen : (merase nodes3 s).length + 1 = t.nodes.length := by
    rw [keys_merase_mem _ _ hspos, hlen3]
  -- run the merge
  have hrun0 : t.merge_sibling k pos = (⟨nodes3, t.roots, t.curr_id⟩ : Tree D).delete_node s := by
    cases pos with
    | After =>
        have hres2 : t.next_sibling k = PRes.ok (some s) := hres
        have hnewkids2 : newkids = n.children ++ ns.children := by rw [hnewkids]; rfl
        simp only [Tree.merge_sibling, hres2, Tree.children, hs, hm1k]
        rw [← hnewkids2, ← hnk, ← hnodes2, h2s, hnodes3, hns0]
    | Before =>
        have hres2 : t.prev_sibling k = PRes.ok (some s) := hres
        have hnewkids2 : newkids = ns.children ++ n.children := by rw [hnewkids]; rfl
        simp only [Tree.merge_sibling, hres2, Tree.children, hs, hm1k]
        rw [← hnewkids2, ← hnk, ← hnodes2, h2s, hnodes3, hns0]
  rw [hrun0]
  -- evaluate the delete according to the parent of s
  have hns0p : ns0.parent = n.parent := by rw [hns0]; exact hpar
  cases hnp : n.parent with
  | none =>
      have hdrun : (⟨nodes3, t.roots, t.curr_id⟩ : Tree D).delete_node s
          = PRes.ok ⟨merase nodes3 s, t.roots.erase s, t.curr_id⟩ :=
        Tree.delete_node_eval_root h3s (hns0p.trans hnp) hdel
      refine ⟨_, hdrun, hdellen, rfl, hdels, ?_, ?_, ?_, ?_, ?_⟩
      · refine ⟨nk, ?_, by rw [hnk], by rw [hnk], by rw [hnk]⟩
        rw [mfind_merase_ne (fun he => hsk he.symm)]
        exact h3k
      · intro c hc
        obtain ⟨nc, hnc, h3c⟩ := h3child c hc
        have hcs2 : c ≠ s := fun he => hscs (he ▸ hc)
        refine ⟨nc, { nc with parent := some k }, hnc, ?_, rfl, rfl, rfl⟩
        rw [mfind_merase_ne hcs2]
        exact h3c
      · intro _; rfl
      · intro p hp; rw [hp] at hnp; cases hnp
      · intro q hqk hqs hqcs _
        rw [mfind_merase_ne hqs]
        exact h3frame q hqk hqs hqcs
  | some p =>
      -- facts about the parent p
      have hpk : p ≠ k := by
        intro he
        have h2 : ek.par = some ek.key := by rw [hekp, hnp, he, hekk]
        exact h.no_self_parent hek h2
      have hps : p ≠ s := by
        intro he
        have h2 : es.par = some es.key := by rw [hesp, hpar, hnp, he, hesk]
        exact h.no_self_parent hes h2
      obtain ⟨ep, hep, hepk, hksin, _⟩ := h.dep_succ hek (by rw [hekp, hnp])
      obtain ⟨ep2, hep2, hep2k, hssin, _⟩ := h.dep_succ hes (by rw [hesp, hpar, hnp])
      have hepe : ep = ep2 := h.ent_unique hep hep2 (by rw [hepk, hep2k])
      subst hepe
      obtain ⟨mp, hmp, _, hmppar, hmpchs⟩ := h.lookup_ent hep
      rw [hepk] at hmp
      have hsmp : s ∈ mp.children := by
        rw [hmpchs, ← hesk]
        exact hssin
      have hpcs : p ∉ ns.children := by
        intro hmem
        obtain ⟨e3, he3, he3k, he3d2⟩ := child_linked hes (by rw [hesc]; exact hmem)
        have he3e : e3 = ep := h.ent_unique he3 hep (by rw [he3k, hepk])
        obtain ⟨_, hd2⟩ := h.parent_unique hes hep hssin
        have he3d : e3.dep = es.dep + 1 := he3d2.2
        rw [he3e] at he3d
        omega
      have hmp_nodup : mp.children.Nodup := by
        have h1 := (h.chs_nodup hep).1
        rwa [← hmpchs] at h1
      obtain ⟨A2, B2, hA2B2, hA2⟩ := first_occ_split hsmp
      -- the parent node is untouched by the three updates and the erase
      have hmp3 : mfind (merase nodes3 s) p = some mp := by
        rw [mfind_merase_ne hps]
        exact (h3frame p hpk hps hpcs).trans hmp
      have hidx : List.findIdx? (fun x => x = s) mp.children = some A2.length := by
        rw [hA2B2]; exact findIdx?_first_zero hA2
      have hdrun : (⟨nodes3, t.roots, t.curr_id⟩ : Tree D).delete_node s
          = PRes.ok ⟨mset (merase nodes3 s) p
              ({ mp with children := A2 ++ B2 }), t.roots, t.curr_id⟩ :=
        Tree.delete_node_eval_parent h3s (hns0p.trans hnp) hdel hmp3 hidx
          (by rw [hA2B2]; exact eraseIdx_at_len A2 s B2)
      have hserase : mp.children.erase s = A2 ++ B2 := by
        rw [hA2B2, List.erase_append_right _ (by simpa using hA2), List.erase_cons_head]
      refine ⟨_, hdrun, ?_, rfl, ?_, ?_, ?_, ?_, ?_, ?_⟩
      · rw [length_mset_mem _ _ _ (mfind_some_mem_keys hmp3), hdellen]
      · rw [mfind_mset_ne _ _ hps.symm, hdels]
      · refine ⟨nk, ?_, by rw [hnk], by rw [hnk], by rw [hnk]⟩
        rw [mfind_mset_ne _ _ hpk.symm, mfind_merase_ne (fun he => hsk he.symm)]
        exact h3k
      · intro c hc
        obtain ⟨nc, hnc, h3c⟩ := h3child c hc
        have hcs2 : c ≠ s := fun he => hscs (he ▸ hc)
        have hcp : c ≠ p := fun he => hpcs (he ▸ hc)
        refine ⟨nc, { nc with parent := some k }, hnc, ?_, rfl, rfl, rfl⟩
        rw [mfind_mset_ne _ _ hcp, mfind_merase_ne hcs2]
        exact h3c
      · intro hcon; rw [hcon] at hnp; cases hnp
      · intro p2 hp2
        rw [hnp] at hp2
        obtain rfl : p = p2 := Option.some_inj.mp hp2
        refine ⟨rfl, mp, { mp with children := A2 ++ B2 }, hmp, mfind_mset_self _ _ _,
          by rw [hserase], rfl, rfl⟩
      · intro q hqk hqs hqcs hqp
        have hqp2 : q ≠ p := fun he => hqp (by rw [hnp, he])
        rw [mfind_mset_ne _ _ hqp2, mfind_merase_ne hqs]
        exact h3frame q hqk hqs hqcs

/-! ### Characterization of recursive deletion -/

theorem entL_keych (l : List Shape) : ∀ (d : Nat) (po : Option Nat) (d2 : Nat)
    (po2 : Option Nat),
    (entL d po l).map (fun e => (e.key, e.chs)) =
      (entL d2 po2 l).map (fun e => (e.key, e.chs)) := by
  induction l using forest_ind with
  | h0 => simp
  | h1 i ks r ihks ihr =>
      intro d po d2 po2
      simp only [entL_cons, List.map_cons, List.map_append]
      rw [ihks (d + 1) (some i) (d2 + 1) (some i), ihr d po d2 po2]

theorem entL_keych_mem {l : List Shape} {d : Nat} {po : Option Nat} (d2 : Nat)
    (po2 : Option Nat) {e : Ent} (he : e ∈ entL d po l) :
    ∃ e2 ∈ entL d2 po2 l, e2.key = e.key ∧ e2.chs = e.chs := by
  have h1 : (e.key, e.chs) ∈ (entL d2 po2 l).map (fun e => (e.key, e.chs)) := by
    rw [entL_keych l d2 po2 d po]
    exact List.mem_map_of_mem _ he
  rcases List.mem_map.mp h1 with ⟨e2, he2, heq⟩
  exact ⟨e2, he2, congrArg Prod.fst heq, congrArg Prod.snd heq⟩

theorem keys_filter {D : Type _} (m : Map D) (p : Nat → Bool) :
    keys (m.filter (fun x => p x.1)) = (keys m).filter p := by
  induction m with
  | nil => simp
  | cons a rest ih =>
      obtain ⟨k0, v0⟩ := a
      by_cases h : p k0 <;> simp [List.filter_cons, h, ih]

theorem filter_mem_length {K F : List Nat} (hK : K.Nodup) (hF : F.Nodup)
    (hsub : ∀ x ∈ F, x ∈ K) :
    (K.filter (fun x => decide (x ∈ F))).length = F.length := by
  have hperm : (K.filter (fun x => decide (x ∈ F))).Perm F := by
    apply (List.perm_ext_iff_of_nodup (hK.filter _) hF).mpr
    intro x
    simp only [List.mem_filter, decide_eq_true_eq]
    exact ⟨fun h => h.2, fun h => ⟨hsub x h, h⟩⟩
  exact hperm.length_eq

/-- The node store contains the whole subtree demanded by a shape list,
with matching child lists. -/
def subPresent {D : Type _} (m : Map D) (ks : List Shape) : Prop :=
  ∀ e ∈ entL 0 none ks, ∃ nd, mfind m e.key = some nd ∧ nd.children = e.chs

/-- Folding `delRecF` over the root identifiers of a shape forest whose
subtrees are present removes exactly the identifiers of those subtrees. -/
theorem delRec_forest {D : Type _} : ∀ (fuel : Nat) (ks : List Shape) (m : Map D),
    subPresent m ks → (flatL ks).Nodup → (keys m).Nodup → m.length ≤ fuel →
    List.foldl (fun acc c => Tree.delRecF fuel acc c) m (ks.map Shape.nid)
      = m.filter (fun p => decide (p.1 ∉ flatL ks)) := by
  intro fuel
  induction fuel with
  | zero =>
      intro ks m hsub hnd hkeys hlen
      have hm : m = [] := List.length_eq_zero.mp (Nat.le_zero.mp hlen)
      subst hm
      have hfold : ∀ (l : List Nat),
          List.foldl (fun acc c => Tree.delRecF 0 acc c) ([] : Map D) l = [] := by
        intro l
        induction l with
        | nil => rfl
        | cons a l ih => simpa [Tree.delRecF_zero] using ih
      rw [hfold]
      simp
  | succ f ih =>
      intro ks
      induction ks with
      | nil =>
          intro m hsub hnd hkeys hlen
          simp
      | cons s0 r ihr =>
          obtain ⟨i, kids⟩ := s0
          intro m hsub hnd hkeys hlen
          have hhead : (⟨i, none, kids.map Shape.nid, 0⟩ : Ent)
              ∈ entL 0 none (Shape.mk i kids :: r) := by simp
          obtain ⟨nd, hndf, hndc⟩ := hsub _ hhead
          have himem : i ∈ keys m := mfind_some_mem_keys hndf
          have hik : i ∉ flatL kids ++ flatL r := by
            have := hnd
            rw [flatL_cons] at this
            exact (List.nodup_cons.mp this).1
          have hikids : i ∉ flatL kids := fun h2 => hik (List.mem_append_left _ h2)
          have hir : i ∉ flatL r := fun h2 => hik (List.mem_append_right _ h2)
          have hdisj : List.Disjoint (flatL kids) (flatL r) := by
            have := hnd
            rw [flatL_cons] at this
            exact List.disjoint_of_nodup_append (List.nodup_cons.mp this).2
          have hndkids : (flatL kids).Nodup := by
            have := hnd
            rw [flatL_cons] at this
            exact (List.nodup_append.mp (List.nodup_cons.mp this).2).1
          have hndr : (flatL r).Nodup := by
            have := hnd
            rw [flatL_cons] at this
            exact (List.nodup_append.mp (List.nodup_cons.mp this).2).2.1
          -- one unfolding of delRecF on the head identifier
          have hstep : Tree.delRecF (f + 1) m i
              = List.foldl (fun acc c => Tree.delRecF f acc c) (merase m i)
                  (kids.map Shape.nid) := by
            rw [Tree.delRecF_succ]
            simp only [hndf]
            rw [hndc]
          -- conditions for the recursive call on the kids
          have hkeyse : keys (merase m i) = (keys m).filter (fun x => !(x = i)) := by
            rw [merase_eq_filter hkeys i]
            have h2 := keys_filter m (fun x => decide ¬(x = i))
            simpa using h2
          have hkeysen : (keys (merase m i)).Nodup := by
            rw [hkeyse]
            exact hkeys.filter _
          have hsubkids : subPresent (merase m i) kids := by
            intro e he
            obtain ⟨e2, he2, hk2, hc2⟩ := entL_keych_mem 1 (some i) he
            have he2m : e2 ∈ entL 0 none (Shape.mk i kids :: r) := by
              rw [entL_cons]
              exact List.mem_cons_of_mem _ (List.mem_append_left _ he2)
            obtain ⟨nd2, hfind2, hchs2⟩ := hsub _ he2m
            have hkey : e.key ∈ flatL kids := by
              rw [← map_key_entL kids 0 none]
              exact List.mem_map_of_mem _ he
            have hkne : e.key ≠ i := fun h2 => hikids (h2 ▸ hkey)
            refine ⟨nd2, ?_, by rw [hchs2, hc2]⟩
            rw [mfind_merase_ne hkne, ← hk2]
            exact hfind2
          have hlen2 : (merase m i).length ≤ f := by
            have := keys_merase_mem m i himem
            omega
          have hkidres := ih kids (merase m i) hsubkids hndkids hkeysen hlen2
          -- express the intermediate map as a filter of m
          have hmid : List.foldl (fun acc c => Tree.delRecF f acc c) (merase m i)
              (kids.map Shape.nid)
              = m.filter (fun p => decide (p.1 ∉ flatL kids) && decide (¬ p.1 = i)) := by
            rw [hkidres, merase_eq_filter hkeys i]
            rw [List.filter_filter]
          -- conditions for the tail of the shape list
          have hsubr : subPresent (m.filter (fun p => decide (p.1 ∉ flatL kids)
              && decide (¬ p.1 = i))) r := by
            intro e he
            have he2m : e ∈ entL 0 none (Shape.mk i kids :: r) := by
              rw [entL_cons]
              exact List.mem_cons_of_mem _ (List.mem_append_right _ he)
            obtain ⟨nd2, hfind2, hchs2⟩ := hsub _ he2m
            have hkey : e.key ∈ flatL r := by
              rw [← map_key_entL r 0 none]
              exact List.mem_map_of_mem _ he
            refine ⟨nd2, ?_, hchs2⟩
            rw [mfind_filter hkeys, hfind2]
            have h5 : e.key ∉ flatL kids := fun h6 => hdisj h6 hkey
            have h6 : ¬ (e.key = i) := fun h7 => hir (h7 ▸ hkey)
            simp [h5, h6]
          have hkeysfn : (keys (m.filter (fun p => decide (p.1 ∉ flatL kids)
              && decide (¬ p.1 = i)))).Nodup := by
            have h2 := keys_filter m (fun x => decide (x ∉ flatL kids) && decide (¬ x = i))
            rw [h2]
            exact hkeys.filter _
          have hlenf : (m.filter (fun p => decide (p.1 ∉ flatL kids)
              && decide (¬ p.1 = i))).length ≤ f + 1 :=
            le_trans (List.length_filter_le _ _) hlen
          -- run the tail
          have htail := ihr (m.filter (fun p => decide (p.1 ∉ flatL kids)
              && decide (¬ p.1 = i))) hsubr hndr hkeysfn hlenf
          have hfinal : (m.filter (fun p => decide (p.1 ∉ flatL kids)
              && decide (¬ p.1 = i))).filter (fun p => decide (p.1 ∉ flatL r))
              = m.filter (fun p => decide (p.1 ∉ flatL (Shape.mk i kids :: r))) := by
            rw [List.filter_filter]
            apply List.filter_congr
            intro p _
            by_cases h1 : p.1 = i <;> by_cases h2 : p.1 ∈ flatL kids <;>
              by_cases h3 : p.1 ∈ flatL r <;> simp [h1, h2, h3]
          have hmap : (Shape.mk i kids :: r).map Shape.nid = i :: r.map Shape.nid := by
            simp [Shape.nid]
          rw [hmap, List.foldl_cons, hstep, hmid, htail, hfinal]

theorem filter_not_mem_length {D : Type _} {m : Map D} {F : List Nat}
    (hkeys : (keys m).Nodup) (hF : F.Nodup) (hsub : ∀ x ∈ F, x ∈ keys m) :
    (m.filter (fun p => decide (p.1 ∉ F))).length + F.length = m.length := by
  have h1 := List.length_eq_length_filter_add (l := m) (fun p => decide (p.1 ∉ F))
  have h2 : m.filter (fun x => !(decide (x.1 ∉ F))) = m.filter (fun x => decide (x.1 ∈ F)) := by
    apply List.filter_congr
    intro p _
    by_cases h : p.1 ∈ F <;> simp [h]
  have h5 : (m.filter (fun x => decide (x.1 ∈ F))).length
      = (keys (m.filter (fun x => decide (x.1 ∈ F)))).length := by simp [keys]
  have h3 : (m.filter (fun x => decide (x.1 ∈ F))).length = F.length := by
    rw [h5, keys_filter m (fun x => decide (x ∈ F))]
    exact filter_mem_length hkeys hF hsub
  rw [h2] at h1
  omega

/-! ### Claim C5: recursive deletion -/

/-- What C5 asserts: deleting an absent identifier is a no-op; deleting a
stored node removes it and its entire subtree — exactly the subtree's
node count — detaches it from the root list or its parent's child list
preserving the order of the remaining entries, and touches nothing
else. -/
def DeleteSpec {D : Type _} (t : Tree D) (ss : List Shape) : Prop :=
  (∀ k, mfind t.nodes k = none → t.delete_node k = PRes.ok t) ∧
  (∀ s0 n, s0 ∈ allSub ss → mfind t.nodes s0.nid = some n →
    ∃ t2, t.delete_node s0.nid = PRes.ok t2 ∧
      t2.curr_id = t.curr_id ∧
      t2.nodes.length + (flatL [s0]).length = t.nodes.length ∧
      (∀ q ∈ flatL [s0], mfind t2.nodes q = none) ∧
      (n.parent = none →
        t2.roots = t.roots.erase s0.nid ∧
        (∀ q, q ∉ flatL [s0] → mfind t2.nodes q = mfind t.nodes q)) ∧
      (∀ p, n.parent = some p →
        t2.roots = t.roots ∧
        (∃ mp mp2, mfind t.nodes p = some mp ∧ mfind t2.nodes p = some mp2 ∧
          mp2.children = mp.children.erase s0.nid ∧ mp2.value = mp.value ∧
          mp2.parent = mp.parent) ∧
        (∀ q, q ∉ flatL [s0] → q ≠ p → mfind t2.nodes q = mfind t.nodes q)))

/-- C5: on a well-formed forest, `delete_node` on a stored node with `N`
descendants removes exactly `N + 1` nodes (the node and its entire
subtree), detaches it from its parent's child list or from the root list
preserving the order of the remaining entries, and is a no-op on an
absent identifier. -/
theorem C5_delete_node_spec {D : Type _} (t : Tree D) (ss : List Shape)
    (h : Rep t ss) : DeleteSpec t ss := by
  constructor
  · intro k hk
    simp [Tree.delete_node, hk]
  · intro s0 n hs0 hn
    obtain ⟨d2, po2, hsubl⟩ := @sub_entries_sublist ss 0 none s0 hs0
    have hhead : (⟨s0.nid, po2, s0.kids.map Shape.nid, d2⟩ : Ent) ∈ entL d2 po2 [s0] := by
      rw [entL_single]
      simp
    have hheadF : (⟨s0.nid, po2, s0.kids.map Shape.nid, d2⟩ : Ent) ∈ entF ss :=
      hsubl.mem hhead
    obtain ⟨eid, heid, heidk, heidp, heidc, _⟩ := h.ent_of_mfind hn
    have heq : eid = ⟨s0.nid, po2, s0.kids.map Shape.nid, d2⟩ :=
      h.ent_unique heid hheadF (by rw [heidk])
    have hnp2 : po2 = n.parent := by rw [← heidp, heq]
    have hsubP : subPresent t.nodes [s0] := by
      intro e he
      obtain ⟨e2, he2, hk2, hc2⟩ := entL_keych_mem d2 po2 he
      obtain ⟨nd, hnd, _, _, hndc⟩ := h.lookup_ent (hsubl.mem he2)
      exact ⟨nd, by rw [← hk2]; exact hnd, by rw [hndc, hc2]⟩
    have hFnodup : (flatL [s0]).Nodup := h.sub_flat_nodup hs0
    have hFkeys : ∀ x ∈ flatL [s0], x ∈ keys t.nodes := by
      intro x hx
      rw [← map_key_entL [s0] 0 none] at hx
      rcases List.mem_map.mp hx with ⟨e, he, hek⟩
      obtain ⟨nd, hnd, _⟩ := hsubP e he
      exact hek ▸ mfind_some_mem_keys hnd
    have hdel : Tree.delRecF t.nodes.length t.nodes s0.nid
        = t.nodes.filter (fun p => decide (p.1 ∉ flatL [s0])) := by
      have h1 := delRec_forest t.nodes.length [s0] t.nodes hsubP hFnodup h.keys_nodup le_rfl
      rw [show ([s0].map Shape.nid) = [s0.nid] from by simp] at h1
      simpa using h1
    have hlen := filter_not_mem_length (m := t.nodes) (F := flatL [s0])
      h.keys_nodup hFnodup hFkeys
    have hgone : ∀ q ∈ flatL [s0],
        mfind (t.nodes.filter (fun p => decide (p.1 ∉ flatL [s0]))) q = none := by
      intro q hq
      rw [mfind_filter h.keys_nodup]
      have hd : decide (q ∉ flatL [s0]) = false := decide_eq_false (not_not_intro hq)
      cases mfind t.nodes q with
      | none => rfl
      | some v =>
          show (if decide (q ∉ flatL [s0]) = true then some v else none) = none
          rw [hd]
          rfl
    have hkeep : ∀ q, q ∉ flatL [s0] →
        mfind (t.nodes.filter (fun p => decide (p.1 ∉ flatL [s0]))) q = mfind t.nodes q := by
      intro q hq
      rw [mfind_filter h.keys_nodup]
      have hd : decide (q ∉ flatL [s0]) = true := decide_eq_true hq
      cases mfind t.nodes q with
      | none => rfl
      | some v =>
          show (if decide (q ∉ flatL [s0]) = true then some v else none) = some v
          rw [hd]
          rfl
    cases hnp : n.parent with
    | none =>
        have hrun := Tree.delete_node_eval_root hn hnp hdel
        refine ⟨_, hrun, rfl, hlen, hgone, fun _ => ⟨rfl, hkeep⟩, ?_⟩
        intro p hp
        cases hp
    | some p =>
        obtain ⟨ep, hepF, hepk, hsin, hdep⟩ := h.dep_succ hheadF
          (by simp only [Ent.par]; rw [hnp2, hnp])
        have hpF : p ∉ flatL [s0] := by
          intro hmem
          rw [← map_key_entL [s0] d2 po2] at hmem
          rcases List.mem_map.mp hmem with ⟨e3, he3, he3k⟩
          have he3F : e3 ∈ entF ss := hsubl.mem he3
          have he3e : e3 = ep := h.ent_unique he3F hepF (by rw [he3k, hepk])
          have hdle : d2 ≤ e3.dep := dep_le_of_mem_entL he3
          rw [he3e] at hdle
          simp only [Ent.dep] at hdep
          omega
        obtain ⟨mp, hmp0, _, _, hmpchs⟩ := h.lookup_ent hepF
        have hmp : mfind t.nodes p = some mp := by rw [← hepk]; exact hmp0
        have hsmp : s0.nid ∈ mp.children := by
          rw [hmpchs]
          exact hsin
        have hmpnodup : mp.children.Nodup := by
          have h1 := (h.chs_nodup hepF).1
          rwa [← hmpchs] at h1
        obtain ⟨A2, B2, hA2B2, hA2⟩ := first_occ_split hsmp
        have hm1p : mfind (t.nodes.filter (fun q => decide (q.1 ∉ flatL [s0]))) p
            = some mp := by
          rw [hkeep p hpF]
          exact hmp
        have hidx : List.findIdx? (fun x => x = s0.nid) mp.children = some A2.length := by
          rw [hA2B2]
          exact findIdx?_first_zero hA2
        have her2 : mp.children.eraseIdx A2.length = A2 ++ B2 := by
          rw [hA2B2]
          exact eraseIdx_at_len A2 s0.nid B2
        have hrun := Tree.delete_node_eval_parent hn hnp hdel hm1p hidx her2
        have hserase : mp.children.erase s0.nid = A2 ++ B2 := by
          rw [hA2B2, List.erase_append_right _ (by simpa using hA2), List.erase_cons_head]
        refine ⟨_, hrun, rfl, ?_, ?_, ?_, ?_⟩
        · rw [length_mset_mem _ _ _ (mfind_some_mem_keys hm1p)]
          exact hlen
        · intro q hq
          have hqp : q ≠ p := fun he => hpF (he ▸ hq)
          rw [mfind_mset_ne _ _ hqp]
          exact hgone q hq
        · intro hcon
          cases hcon
        · intro p2 hp2
          obtain rfl : p = p2 := Option.some_inj.mp hp2
          refine ⟨rfl, ⟨mp, { mp with children := A2 ++ B2 }, hmp, mfind_mset_self _ _ _,
            by rw [hserase], rfl, rfl⟩, ?_⟩
          intro q hq hqp
          rw [mfind_mset_ne _ _ hqp]
          exact hkeep q hq

/-- Witness for C5 at the example forest, deleting root `0` whose subtree
is `0, 1, 2`. -/
theorem C5_witness : Rep exT exSS ∧ DeleteSpec exT exSS :=
  ⟨rep_ex, C5_delete_node_spec exT exSS rep_ex⟩

/-! ### Claims C4 and C10 -/

/-- What C4 asserts of one `merge_sibling` call: if no sibling exists in
the requested direction the forest is returned entirely unchanged;
otherwise the resolved sibling's children are reparented onto the node
(appended for After, prepended for Before, preserving relative order), and
the sibling alone is detached and removed. -/
def MergeSpec {D : Type _} (t : Tree D) (k : Nat) (pos : Pos) : Prop :=
  (sibResolve t k pos = PRes.ok none →
      t.merge_sibling k pos = PRes.ok t) ∧
  (∀ s, sibResolve t k pos = PRes.ok (some s) →
      ∃ t2 n ns, mfind t.nodes k = some n ∧ mfind t.nodes s = some ns ∧
        t.merge_sibling k pos = PRes.ok t2 ∧ MergedFacts t t2 k s n ns pos)

/-- C4: on a well-formed forest, `merge_sibling` resolves the previous
sibling for Before and the next sibling for After; if none exists the
forest is left entirely unchanged, and otherwise the sibling's children
are reparented onto the node — appended after its own children for After,
prepended before them for Before, preserving relative order within each
group — and the sibling node, but none of its former children, is
detached and removed. -/
theorem C4_merge_sibling_spec {D : Type _} (t : Tree D) (ss : List Shape) (k : Nat)
    (pos : Pos) (h : Rep t ss) : MergeSpec t k pos := by
  constructor
  · intro hres
    cases pos with
    | After =>
        have hres2 : t.next_sibling k = PRes.ok none := hres
        simp only [Tree.merge_sibling, hres2]
    | Before =>
        have hres2 : t.prev_sibling k = PRes.ok none := hres
        simp only [Tree.merge_sibling, hres2]
  · intro s hres
    cases hk : mfind t.nodes k with
    | none =>
        obtain ⟨h1, h2⟩ := sib_queries_absent (t := t) hk
        exfalso
        cases pos with
        | After =>
            have hres2 : t.next_sibling k = PRes.ok (some s) := hres
            rw [h1] at hres2
            cases hres2
        | Before =>
            have hres2 : t.prev_sibling k = PRes.ok (some s) := hres
            rw [h2] at hres2
            cases hres2
    | some n =>
        obtain ⟨L, A, B, hLAB, hA, hB, hnodup, hcase⟩ := h.sib_decomp hk
        have heval : t.next_sibling k = PRes.ok B.head? ∧
            t.prev_sibling k = PRes.ok A.getLast? := by
          rcases hcase with ⟨hpn, hL⟩ | ⟨p, m, hpn, hm, hL, _⟩
          · have hev := Tree.sib_eval_root hk hpn (hL ▸ hLAB) hA
            exact ⟨hev.2.2.2.1, hev.2.2.2.2⟩
          · have hev := Tree.sib_eval_parent hk hpn hm (hL ▸ hLAB) hA
            exact ⟨hev.2.2.2.1, hev.2.2.2.2⟩
        have hsL : s ∈ L ∧ s ≠ k := by
          cases pos with
          | After =>
              have hBs : B.head? = some s := by
                have h6 : t.next_sibling k = PRes.ok (some s) := hres
                rw [heval.1, PRes.ok.injEq] at h6
                exact h6
              have hsB : s ∈ B := by
                cases B with
                | nil => cases hBs
                | cons b B0 =>
                    rw [show b = s from Option.some_inj.mp (by simpa using hBs)]
                    simp
              refine ⟨by rw [hLAB]; simp [hsB], fun he => hB (he ▸ hsB)⟩
          | Before =>
              have hAs : A.getLast? = some s := by
                have h6 : t.prev_sibling k = PRes.ok (some s) := hres
                rw [heval.2, PRes.ok.injEq] at h6
                exact h6
              have hsA : s ∈ A := List.mem_of_mem_getLast? hAs
              refine ⟨by rw [hLAB]; simp [hsA], fun he => hA (he ▸ hsA)⟩
        obtain ⟨ns, hns, hnsp⟩ := h.sibling_node hcase hsL.1
        obtain ⟨t2, hrun, hfacts⟩ := merge_core pos h hk hns hsL.2 hnsp hres
        exact ⟨t2, n, ns, rfl, hns, hrun, hfacts⟩

/-- Witness for C4 at the example forest: merging root child `1` with its
next sibling `2`. -/
theorem C4_witness : Rep exT exSS ∧ MergeSpec exT 1 Pos.After :=
  ⟨rep_ex, C4_merge_sibling_spec exT exSS 1 Pos.After rep_ex⟩

/-- What C10 asserts: for a root at position `A.length` of the root list,
the next and previous siblings are the adjacent roots in root-list order,
and an After merge folds the next root into it, removing that root. -/
def RootSiblingSpec {D : Type _} (t : Tree D) : Prop :=
  ∀ A r B, t.roots = A ++ r :: B →
    t.next_sibling r = PRes.ok B.head? ∧
    t.prev_sibling r = PRes.ok A.getLast? ∧
    (∀ s, B.head? = some s →
      ∃ t2 n ns, mfind t.nodes r = some n ∧ n.parent = none ∧
        mfind t.nodes s = some ns ∧
        t.merge_sibling r Pos.After = PRes.ok t2 ∧ MergedFacts t t2 r s n ns Pos.After)

/-- C10: the sibling operations treat the ordered root list as the sibling
list of a parentless node — `next_sibling` and `prev_sibling` of a root
return the adjacent root in root-list order, and `merge_sibling` on a root
merges the adjacent root into it (children reparented, subtree preserved)
and removes that root. -/
theorem C10_root_siblings {D : Type _} (t : Tree D) (ss : List Shape) (h : Rep t ss) :
    RootSiblingSpec t := by
  intro A r B hroots
  have hrL : r ∈ t.roots := by rw [hroots]; simp
  obtain ⟨n, hk, hpn⟩ := h.root_node hrL
  have hnodup : t.roots.Nodup := h.roots_nodup
  have hrA : r ∉ A := by
    rw [hroots] at hnodup
    intro hmem
    exact (List.disjoint_of_nodup_append hnodup) hmem (by simp)
  have hrB : r ∉ B := by
    rw [hroots] at hnodup
    have h2 := (List.nodup_append.mp hnodup).2.1
    exact (List.nodup_cons.mp h2).1
  have hev := Tree.sib_eval_root hk hpn hroots hrA
  refine ⟨hev.2.2.2.1, hev.2.2.2.2, ?_⟩
  intro s hBs
  have hsB : s ∈ B := by
    cases B with
    | nil => cases hBs
    | cons b B0 =>
        rw [show b = s from Option.some_inj.mp (by simpa using hBs)]
        simp
  have hsR : s ∈ t.roots := by rw [hroots]; simp [hsB]
  obtain ⟨ns, hns, hnsp⟩ := h.root_node hsR
  have hsk : s ≠ r := fun he => hrB (he ▸ hsB)
  obtain ⟨t2, hrun, hfacts⟩ := merge_core Pos.After h hk hns hsk (by rw [hnsp, hpn])
    (hev.2.2.2.1.trans (by rw [hBs]))
  exact ⟨t2, n, ns, hk, hpn, hns, hrun, hfacts⟩

/-- Witness for C10 at the example forest. -/
theorem C10_witness : Rep exT exSS ∧ RootSiblingSpec exT :=
  ⟨rep_ex, C10_root_siblings exT exSS rep_ex⟩

/-- Witness for C7: identifier `9` is absent from the example forest. -/
theorem C7_witness : mfind exT.nodes 9 = none ∧ AbsentIdSpec exT 9 99 Pos.After :=
  ⟨by decide, C7_absent_id exT 9 99 Pos.After (by decide)⟩


/-! ### Claim C6: identifier assignment across a run of operations -/

/-- One user-level mutating operation on a forest (`src/tree.rs`): the
three creating operations plus deletion. -/
inductive Op (D : Type _) where
  | addRoot (v : D)
  | pushChild (id : Nat) (v : D)
  | addSibling (id : Nat) (v : D) (pos : Pos)
  | deleteNode (id : Nat)

/-- Run one operation; the `Option Nat` is the identifier it created, if
any (a failed `push_child`/`add_sibling` creates none). -/
def applyOp (t : Tree D) (op : Op D) : PRes (Tree D × Option Nat) :=
  match op with
  | Op.addRoot v => PRes.ok ((t.add_root v).2, some (t.add_root v).1)
  | Op.pushChild id v =>
      match t.push_child id v with
      | (Except.ok nid, t2) => PRes.ok (t2, some nid)
      | (Except.error _, t2) => PRes.ok (t2, none)
  | Op.addSibling id v pos =>
      match t.add_sibling id v pos with
      | PRes.panic => PRes.panic
      | PRes.ok (Except.ok nid, t2) => PRes.ok (t2, some nid)
      | PRes.ok (Except.error _, t2) => PRes.ok (t2, none)
  | Op.deleteNode id =>
      match t.delete_node id with
      | PRes.panic => PRes.panic
      | PRes.ok t2 => PRes.ok (t2, none)

/-- Run a sequence of operations, collecting the created identifiers in
creation order. -/
def run (t : Tree D) : List (Op D) → PRes (Tree D × List Nat)
  | [] => PRes.ok (t, [])
  | op :: ops =>
      match applyOp t op with
      | PRes.panic => PRes.panic
      | PRes.ok (t1, co) =>
          match run t1 ops with
          | PRes.panic => PRes.panic
          | PRes.ok (t2, ids) =>
              PRes.ok (t2, (match co with | some i => [i] | none => []) ++ ids)

/-- A successful `delete_node` never changes the identifier counter. -/
theorem delete_node_curr {t t2 : Tree D} {id : Nat}
    (h : t.delete_node id = PRes.ok t2) : t2.curr_id = t.curr_id := by
  cases hmm : mfind t.nodes id with
  | none =>
      simp only [Tree.delete_node, hmm, PRes.ok.injEq] at h
      rw [← h]
  | some nd =>
      cases hpp : nd.parent with
      | none =>
          simp only [Tree.delete_node, hmm, hpp, PRes.ok.injEq] at h
          rw [← h]
      | some par_id =>
          cases hq : mfind (Tree.delRecF t.nodes.length t.nodes id) par_id with
          | none =>
              simp only [Tree.delete_node, hmm, hpp, hq] at h
              cases h
          | some parNode =>
              simp only [Tree.delete_node, hmm, hpp, hq, PRes.ok.injEq] at h
              rw [← h]

/-- Each successful operation either creates nothing and keeps the
counter, or creates exactly the node `curr_id` and bumps the counter by
one modulo `2^32`. -/
theorem applyOp_step {t t1 : Tree D} {op : Op D} {co : Option Nat}
    (h : applyOp t op = PRes.ok (t1, co)) :
    (co = none ∧ t1.curr_id = t.curr_id) ∨
    (co = some t.curr_id ∧ t1.curr_id = (t.curr_id + 1) % U32MOD) := by
  cases op with
  | addRoot v =>
      right
      simp only [applyOp, PRes.ok.injEq, Prod.mk.injEq] at h
      obtain ⟨h1, h2⟩ := h
      rw [← h1, ← h2]
      exact ⟨rfl, rfl⟩
  | pushChild id v =>
      cases hm : mfind t.nodes id with
      | none =>
          left
          simp only [applyOp, Tree.push_child, hm, PRes.ok.injEq, Prod.mk.injEq] at h
          obtain ⟨h1, h2⟩ := h
          rw [← h1, ← h2]
          exact ⟨rfl, rfl⟩
      | some pn =>
          right
          simp only [applyOp, Tree.push_child, hm, PRes.ok.injEq, Prod.mk.injEq] at h
          obtain ⟨h1, h2⟩ := h
          rw [← h1, ← h2]
          exact ⟨rfl, rfl⟩
  | addSibling id v pos =>
      cases hm : mfind t.nodes id with
      | none =>
          left
          simp only [applyOp, Tree.add_sibling, hm, PRes.ok.injEq, Prod.mk.injEq] at h
          obtain ⟨h1, h2⟩ := h
          rw [← h1, ← h2]
          exact ⟨rfl, rfl⟩
      | some node =>
          cases hp : node.parent with
          | none =>
              right
              simp only [applyOp, Tree.add_sibling, hm, hp, PRes.ok.injEq,
                Prod.mk.injEq] at h
              obtain ⟨h1, h2⟩ := h
              rw [← h1, ← h2]
              exact ⟨rfl, rfl⟩
          | some par_id =>
              cases hq : mfind (mset t.nodes t.curr_id
                  (⟨v, some par_id, [], t.curr_id⟩ : Node D)) par_id with
              | none =>
                  simp only [applyOp, Tree.add_sibling, hm, hp, Tree.children, hq,
                    List.findIdx?_nil] at h
                  cases h
              | some pn =>
                  cases hidx : List.findIdx? (fun x => x = id) pn.children with
                  | none =>
                      simp only [applyOp, Tree.add_sibling, hm, hp, Tree.children, hq,
                        hidx] at h
                      cases h
                  | some i =>
                      right
                      simp only [applyOp, Tree.add_sibling, hm, hp, Tree.children, hq,
                        hidx, PRes.ok.injEq, Prod.mk.injEq] at h
                      obtain ⟨h1, h2⟩ := h
                      rw [← h1, ← h2]
                      exact ⟨rfl, rfl⟩
  | deleteNode id =>
      left
      cases hd : t.delete_node id with
      | panic =>
          simp only [applyOp, hd] at h
          cases h
      | ok t2 =>
          simp only [applyOp, hd, PRes.ok.injEq, Prod.mk.injEq] at h
          obtain ⟨h1, h2⟩ := h
          rw [← h1, ← h2, delete_node_curr hd]
          exact ⟨rfl, rfl⟩

theorem U32MOD_pos : 0 < U32MOD := by
  rw [U32MOD]
  exact Nat.pos_pow_of_pos 32 (by omega)

/-- Characterization of the created identifiers over any successful run:
some number `k` of nodes were created, with identifiers
`c, (c+1) % 2^32, ...` for the starting counter `c`, and the final
counter is `(c + k) % 2^32`. -/
theorem run_ids : ∀ (ops : List (Op D)) (t t2 : Tree D) (ids : List Nat),
    t.curr_id < U32MOD → run t ops = PRes.ok (t2, ids) →
    ∃ k, ids = (List.range k).map (fun i => (t.curr_id + i) % U32MOD) ∧
      t2.curr_id = (t.curr_id + k) % U32MOD := by
  intro ops
  induction ops with
  | nil =>
      intro t t2 ids hc h
      simp only [run, PRes.ok.injEq, Prod.mk.injEq] at h
      obtain ⟨h1, h2⟩ := h
      refine ⟨0, by rw [← h2]; rfl, ?_⟩
      rw [← h1, Nat.add_zero, Nat.mod_eq_of_lt hc]
  | cons op ops ih =>
      intro t t2 ids hc h
      cases ha : applyOp t op with
      | panic =>
          simp only [run, ha] at h
          cases h
      | ok pr =>
          obtain ⟨t1, co⟩ := pr
          simp only [run, ha] at h
          cases hr : run t1 ops with
          | panic => rw [hr] at h; cases h
          | ok pr2 =>
              obtain ⟨t2x, ids2⟩ := pr2
              rw [hr, PRes.ok.injEq, Prod.mk.injEq] at h
              obtain ⟨ht2, hids⟩ := h
              rcases applyOp_step ha with ⟨hco, hcu⟩ | ⟨hco, hcu⟩
              · have hc1 : t1.curr_id < U32MOD := by rw [hcu]; exact hc
                obtain ⟨k, hids2, hcur2⟩ := ih t1 t2x ids2 hc1 hr
                refine ⟨k, ?_, ?_⟩
                · rw [← hids, hco]
                  simp only [List.nil_append]
                  rw [hids2, hcu]
                · rw [← ht2, hcur2, hcu]
              · have hc1 : t1.curr_id < U32MOD := by
                  rw [hcu]
                  exact Nat.mod_lt _ U32MOD_pos
                obtain ⟨k, hids2, hcur2⟩ := ih t1 t2x ids2 hc1 hr
                refine ⟨k + 1, ?_, ?_⟩
                · rw [← hids, hco]
                  rw [List.range_succ_eq_map, List.map_cons, List.map_map]
                  rw [Nat.add_zero, Nat.mod_eq_of_lt hc]
                  simp only [List.singleton_append, List.cons.injEq]
                  refine ⟨by trivial, ?_⟩
                  rw [hids2, hcu]
                  apply List.map_congr_left
                  intro i _
                  simp only [Function.comp]
                  rw [Nat.mod_add_mod]
                  congr 1
                  omega
                · rw [← ht2, hcur2, hcu, Nat.mod_add_mod]
                  congr 1
                  omega

/-- Counterexample to C6 as stated: the identifier counter is a 32-bit
integer, so a run of `2^32 + 1` root creations hands out `2^32 + 1`
identifiers that are neither all distinct nor strictly increasing — the
very first identifier `0` is handed out again by the last creation. -/
theorem C6_counterexample :
    ∃ t2 ids,
      run Tree.new (List.replicate (U32MOD + 1) (Op.addRoot (0 : Nat)))
        = PRes.ok (t2, ids) ∧
      ids.length = U32MOD + 1 ∧ ¬ ids.Nodup ∧ ¬ List.Pairwise (· < ·) ids := by
  have key : ∀ (n : Nat) (t : Tree Nat), t.curr_id < U32MOD → ∃ t2,
      run t (List.replicate n (Op.addRoot (0 : Nat)))
        = PRes.ok (t2, (List.range n).map (fun i => (t.curr_id + i) % U32MOD)) := by
    intro n
    induction n with
    | zero =>
        intro t hc
        exact ⟨t, by simp [run]⟩
    | succ n ih =>
        intro t hc
        have hc1 : (Tree.add_root t 0).2.curr_id < U32MOD :=
          Nat.mod_lt _ U32MOD_pos
        obtain ⟨t2, h2⟩ := ih (t.add_root 0).2 hc1
        refine ⟨t2, ?_⟩
        rw [List.replicate_succ]
        simp only [run, show applyOp t (Op.addRoot (0 : Nat))
            = PRes.ok ((t.add_root 0).2, some (t.add_root 0).1) from rfl, h2]
        rw [PRes.ok.injEq, Prod.mk.injEq]
        refine ⟨rfl, ?_⟩
        rw [List.range_succ_eq_map, List.map_cons, List.map_map]
        rw [Nat.add_zero, Nat.mod_eq_of_lt hc]
        simp only [List.singleton_append, List.cons.injEq]
        refine ⟨rfl, ?_⟩
        apply List.map_congr_left
        intro i _
        simp only [Function.comp]
        have hcu : (Tree.add_root t 0).2.curr_id = (t.curr_id + 1) % U32MOD := rfl
        rw [hcu, Nat.mod_add_mod]
        congr 1
        omega
  obtain ⟨t2, h2⟩ := key (U32MOD + 1) Tree.new U32MOD_pos
  refine ⟨t2, _, h2, by simp, ?_, ?_⟩
  · intro hnd
    have h0 : ((List.range (U32MOD + 1)).map
        (fun i => ((Tree.new : Tree Nat).curr_id + i) % U32MOD)).get
          ⟨0, by simp [U32MOD_pos]⟩ = 0 := by
      rw [List.get_eq_getElem]
      simp only [List.getElem_map, List.getElem_range]
      rw [show (Tree.new : Tree Nat).curr_id = 0 from rfl, Nat.zero_add,
        Nat.zero_mod]
    have hM : ((List.range (U32MOD + 1)).map
        (fun i => ((Tree.new : Tree Nat).curr_id + i) % U32MOD)).get
          ⟨U32MOD, by simp⟩ = 0 := by
      rw [List.get_eq_getElem]
      simp only [List.getElem_map, List.getElem_range]
      rw [show (Tree.new : Tree Nat).curr_id = 0 from rfl, Nat.zero_add,
        Nat.mod_self]
    have h1 := (List.Nodup.get_inj_iff hnd).mp (h0.trans hM.symm)
    have h3 : (0 : Nat) = U32MOD := congrArg Fin.val h1
    have hMpos := U32MOD_pos
    omega
  · intro hpw
    rw [List.pairwise_iff_getElem] at hpw
    have := hpw 0 U32MOD (by simp [U32MOD_pos]) (by simp) U32MOD_pos
    simp [Tree.new] at this

/-- C6 amended: as long as fewer than `2^32` identifiers are handed out,
the claim holds — starting from an empty forest, a successful run's
created identifiers are exactly `0, 1, 2, ...` in creation order:
strictly increasing, never reused even across deletions, and all below
the final counter, which equals the number of creations. -/
theorem C6_id_monotonicity (ops : List (Op D)) (t2 : Tree D) (ids : List Nat)
    (h : run Tree.new ops = PRes.ok (t2, ids)) (hlen : ids.length < U32MOD) :
    ids = List.range ids.length ∧ t2.curr_id = ids.length ∧
      List.Pairwise (· < ·) ids ∧ ids.Nodup ∧ ∀ i ∈ ids, i < t2.curr_id := by
  obtain ⟨k, hids, hcur⟩ := run_ids ops Tree.new t2 ids U32MOD_pos h
  have hk : ids.length = k := by rw [hids]; simp
  have hz : (Tree.new : Tree D).curr_id = 0 := rfl
  rw [hz] at hids hcur
  have hrange : ids = List.range k := by
    rw [hids]
    have hcg : ∀ i ∈ List.range k, (0 + i) % U32MOD = i := by
      intro i hi
      have hik : i < k := List.mem_range.mp hi
      rw [Nat.zero_add]
      exact Nat.mod_eq_of_lt (by omega)
    calc (List.range k).map (fun i => (0 + i) % U32MOD)
        = (List.range k).map id := List.map_congr_left hcg
      _ = List.range k := List.map_id _
  have hcur2 : t2.curr_id = k := by
    rw [hcur, Nat.zero_add]
    exact Nat.mod_eq_of_lt (by omega)
  refine ⟨by rw [hk, hrange], by rw [hcur2, hk], ?_, ?_, ?_⟩
  · rw [hrange]
    exact List.pairwise_lt_range k
  · rw [hrange]
    exact List.nodup_range k
  · intro i hi
    rw [hrange] at hi
    rw [hcur2]
    exact List.mem_range.mp hi

/-- Witness for C6 at a concrete run: two creations, a child, a deletion
and another creation from the empty forest hand out `0, 1, 2`. -/
theorem C6_witness :
    ∃ t2 ids,
      run Tree.new [Op.addRoot (0 : Nat), Op.pushChild 0 1, Op.deleteNode 0, Op.addRoot 2]
        = PRes.ok (t2, ids) ∧
      (ids = List.range ids.length ∧ t2.curr_id = ids.length ∧
        List.Pairwise (· < ·) ids ∧ ids.Nodup ∧ ∀ i ∈ ids, i < t2.curr_id) := by
  have h : run Tree.new [Op.addRoot (0 : Nat), Op.pushChild 0 1, Op.deleteNode 0,
      Op.addRoot 2] = PRes.ok (⟨[(2, ⟨2, none, [], 2⟩)], [2], 3⟩, [0, 1, 2]) := by rfl
  exact ⟨_, _, h, C6_id_monotonicity _ _ _ h (by rw [U32MOD]; norm_num)⟩

/-! ### Claims C1 and C2: the `title` attribute mini-language parser
(src/ocr_element.rs).  Strings are modelled as `List Char`; `f32` values
are modelled exactly by `ERat`, a normalized rational pair
(floating-point rounding, `inf` and `NaN` are not modelled — the inputs
of interest are short decimal literals);
`u32` parsing enforces the `2^32` bound.  The splitting helpers mirror
`str::split`, `split_once`, `splitn(2, _)` and `split_terminator("; ")`
including their treatment of empty pieces. -/

/-- Whitespace as far as `str::trim` matters here. -/
def isWS (c : Char) : Bool := c = ' ' || c = '\t' || c = '\n' || c = '\r'

/-- `str::trim`. -/
def trimList (cs : List Char) : List Char :=
  ((cs.dropWhile isWS).reverse.dropWhile isWS).reverse

/-- `str::split(sep)` for a one-character separator: split at every
occurrence, keeping empty pieces. -/
def splitCharList (sep : Char) : List Char → List (List Char)
  | [] => [[]]
  | c :: r =>
      let rest := splitCharList sep r
      if c = sep then [] :: rest
      else
        match rest with
        | [] => [[c]]
        | h :: t => (c :: h) :: t

/-- `str::split("; ")`, specialised to the two-character separator the
source uses: greedy left-to-right, keeping empty pieces. -/
def splitSemiSp : List Char → List (List Char)
  | [] => [[]]
  | ';' :: ' ' :: r => [] :: splitSemiSp r
  | c :: r =>
      match splitSemiSp r with
      | [] => [[c]]
      | h :: t => (c :: h) :: t

/-- `str::split_terminator("; ")`: like split, but a final empty piece is
skipped. -/
def splitTermSemiSp (cs : List Char) : List (List Char) :=
  let ps := splitSemiSp cs
  if ps.getLast? = some [] then ps.dropLast else ps

/-- `str::split_once(" ")`. -/
def splitOnceSp : List Char → Option (List Char × List Char)
  | [] => none
  | c :: r =>
      if c = ' ' then some ([], r)
      else
        match splitOnceSp r with
        | none => none
        | some (a, b) => some (c :: a, b)

/-- `str::splitn(2, " ")`: at most two pieces, the second unsplit. -/
def splitn2Sp (cs : List Char) : List (List Char) :=
  match splitOnceSp cs with
  | none => [cs]
  | some (a, b) => [a, b]

/-- `str::trim_matches(a)` for the quote character. -/
def trimMatchesQuote (cs : List Char) : List Char :=
  ((cs.dropWhile (· = '"')).reverse.dropWhile (· = '"')).reverse

def allDigits (cs : List Char) : Bool := cs.all (·.isDigit)

def natOfDigits (cs : List Char) : Nat :=
  cs.foldl (fun a c => a * 10 + (c.toNat - 48)) 0

/-- Split a character list at the first character satisfying `p`:
the part before it and, if found, the part after it. -/
def splitAtChar (p : Char → Bool) : List Char → List Char × Option (List Char)
  | [] => ([], none)
  | c :: r =>
      if p c then ([], some r)
      else
        let (a, b) := splitAtChar p r
        (c :: a, b)

/-- An exact rational in lowest terms, used to model `f32` values (the
kernel cannot evaluate `Rat` arithmetic, so the model carries its own
normalized pairs; `qnorm` is the only constructor used with a possibly
unreduced pair). -/
structure ERat where
  num : Int
  den : Nat
deriving DecidableEq

/-- Normalize an integer pair to lowest terms (a zero denominator cannot
arise from the parser; it is mapped to 0). -/
def qnorm (n : Int) (d : Nat) : ERat :=
  if d = 0 then ⟨0, 1⟩
  else
    let g := Nat.gcd n.natAbs d
    ⟨n / (g : Int), d / g⟩

/-- `f32::from_str`, modelled exactly over `ERat`: optional sign, decimal
mantissa with at least one digit, optional `e`/`E` exponent with
optional sign and at least one digit; the value is
`± mantissa * 10 ^ exponent`. -/
def parseF32 (s : List Char) : Option ERat :=
  let sp : Int × List Char :=
    match s with
    | '+' :: r => (1, r)
    | '-' :: r => (-1, r)
    | r => (1, r)
  let mePair := splitAtChar (fun c => c = 'e' || c = 'E') sp.2
  let ifPair := splitAtChar (fun c => c = '.') mePair.1
  let ip := ifPair.1
  let fp := (ifPair.2).getD []
  if ip.isEmpty && fp.isEmpty then none
  else if !(allDigits ip && allDigits fp) then none
  else
    let mnum : Nat := natOfDigits ip * 10 ^ fp.length + natOfDigits fp
    match mePair.2 with
    | none => some (qnorm (sp.1 * (mnum : Int)) (10 ^ fp.length))
    | some ecs =>
        let esp : Bool × List Char :=
          match ecs with
          | '+' :: r => (true, r)
          | '-' :: r => (false, r)
          | r => (true, r)
        if esp.2.isEmpty || !allDigits esp.2 then none
        else
          let e := natOfDigits esp.2
          if esp.1 then
            some (qnorm (sp.1 * (mnum : Int) * (10 ^ e : Int)) (10 ^ fp.length))
          else
            some (qnorm (sp.1 * (mnum : Int)) (10 ^ fp.length * 10 ^ e))

/-- `u32::from_str`: optional `+`, at least one digit, value below
`2^32`. -/
def parseU32 (s : List Char) : Option Nat :=
  let cs :=
    match s with
    | '+' :: r => r
    | r => r
  if cs.isEmpty || !allDigits cs then none
  else
    let v := natOfDigits cs
    if v < U32MOD then some v else none

/-- `egui::Pos2` over exact rationals. -/
structure Pos2 where
  x : ERat
  y : ERat
deriving DecidableEq

/-- `egui::Rect` over exact rationals. -/
structure Rect where
  min : Pos2
  max : Pos2
deriving DecidableEq

/-- `rect_from_attr` (src/ocr_element.rs lines 84-98): trim, split on
single spaces, keep the first four tokens, parse each as `f32`; when all
parse, index `v[0] .. v[3]` — a panic when fewer than four tokens were
present. -/
def rect_from_attr (s : List Char) : PRes (Except String Rect) :=
  let toks := (splitCharList ' ' (trimList s)).take 4
  match toks.mapM parseF32 with
  | none => PRes.ok (Except.error "Failed conversion to f32")
  | some v =>
      match v with
      | x :: y :: z :: w :: _ => PRes.ok (Except.ok ⟨⟨x, y⟩, ⟨z, w⟩⟩)
      | _ => PRes.panic

/-- `OCRProperty` (src/ocr_element.rs lines 100-111). -/
inductive OCRProperty where
  | BBox (r : Rect)
  | Image (s : List Char)
  | Float (f : ERat)
  | UInt (n : Nat)
  | Baseline (a b : ERat)
  | ScanRes (a b : Nat)
deriving DecidableEq

instance {ε α : Type _} [DecidableEq ε] [DecidableEq α] : DecidableEq (Except ε α)
  | Except.error e1, Except.error e2 =>
      match decEq e1 e2 with
      | isTrue h => isTrue (by rw [h])
      | isFalse h => isFalse (by intro hc; cases hc; exact h rfl)
  | Except.error _, Except.ok _ => isFalse (by intro hc; cases hc)
  | Except.ok _, Except.error _ => isFalse (by intro hc; cases hc)
  | Except.ok a1, Except.ok a2 =>
      match decEq a1 a2 with
      | isTrue h => isTrue (by rw [h])
      | isFalse h => isFalse (by intro hc; cases hc; exact h rfl)

/-- A string-keyed map, modelling `HashMap<String, _>`. -/
abbrev SMap (α : Type _) : Type _ := List (List Char × α)

def sfind {α : Type _} : SMap α → List Char → Option α
  | [], _ => none
  | (k, v) :: r, q => if k = q then some v else sfind r q

def sset {α : Type _} : SMap α → List Char → α → SMap α
  | [], k, v => [(k, v)]
  | (k0, v0) :: r, k, v => if k0 = k then (k, v) :: r else (k0, v0) :: sset r k v

/-- One clause of `parse_properties` (src/ocr_element.rs lines 320-359):
a pattern with no space is skipped; otherwise the trimmed key selects the
value parser; an unparsable value drops the clause, except that
`baseline` and `scan_res` index `v[0]`/`v[1]` of the collected pieces and
panic when `splitn(2, " ")` produced a single piece that parsed. -/
def parseClause (pattern : List Char) (dict : SMap OCRProperty) :
    PRes (SMap OCRProperty) :=
  match splitOnceSp pattern with
  | none => PRes.ok dict
  | some (pre, suffix) =>
      let trimmed := trimList pre
      if trimmed = "image".data then
        PRes.ok (sset dict trimmed (OCRProperty.Image (trimMatchesQuote suffix)))
      else if trimmed = "bbox".data then
        match rect_from_attr suffix with
        | PRes.panic => PRes.panic
        | PRes.ok (Except.ok rect) => PRes.ok (sset dict trimmed (OCRProperty.BBox rect))
        | PRes.ok (Except.error _) => PRes.ok dict
      else if trimmed = "baseline".data then
        match (splitn2Sp suffix).mapM parseF32 with
        | none => PRes.ok dict
        | some (a :: b :: _) => PRes.ok (sset dict trimmed (OCRProperty.Baseline a b))
        | some _ => PRes.panic
      else if trimmed = "ppageno".data ∨ trimmed = "x_wconf".data then
        match parseU32 suffix with
        | some v => PRes.ok (sset dict trimmed (OCRProperty.UInt v))
        | none => PRes.ok dict
      else if trimmed = "scan_res".data then
        match (splitn2Sp suffix).mapM parseU32 with
        | none => PRes.ok dict
        | some (a :: b :: _) => PRes.ok (sset dict trimmed (OCRProperty.ScanRes a b))
        | some _ => PRes.panic
      else if trimmed = "x_size".data ∨ trimmed = "x_descenders".data
          ∨ trimmed = "x_ascenders".data then
        match parseF32 suffix with
        | some v => PRes.ok (sset dict trimmed (OCRProperty.Float v))
        | none => PRes.ok dict
      else PRes.ok dict

/-- The clause loop of `parse_properties`. -/
def parseClauses : List (List Char) → SMap OCRProperty → PRes (SMap OCRProperty)
  | [], dict => PRes.ok dict
  | pat :: rest, dict =>
      match parseClause pat dict with
      | PRes.panic => PRes.panic
      | PRes.ok d2 => parseClauses rest d2

/-- `OCRProperty::parse_properties` (src/ocr_element.rs lines 318-365):
process the `"; "`-terminated clauses, then fail with
MissingBoundingBox when no `bbox` entry was recorded. -/
def parse_properties (title_content : List Char) :
    PRes (Except String (SMap OCRProperty)) :=
  match parseClauses (splitTermSemiSp title_content) [] with
  | PRes.panic => PRes.panic
  | PRes.ok dict =>
      match sfind dict "bbox".data with
      | none => PRes.ok (Except.error "Could not find bbox in properties!")
      | some _ => PRes.ok (Except.ok dict)

/-- C1: refuted — a `bbox` clause whose three tokens all parse as `f32`
is not dropped silently: `rect_from_attr` collects the tokens
successfully and then indexes `v[3]`, a panic, so the clause faults the
whole element parse. -/
theorem C1_short_bbox_panics :
    parse_properties "bbox 0 0 5".data = PRes.panic := by rfl

/-- A well-formed sibling input for contrast with C1: with four numeric
tokens the same clause parses and the element parse succeeds. -/
theorem C1_contrast_full_bbox :
    ∃ d, parse_properties "bbox 0 0 5 5".data = PRes.ok (Except.ok d) := ⟨_, rfl⟩

/-- C2: refuted — on input `"baseline 1"` no `bbox` entry is ever
present, yet `parse_properties` does not return MissingBoundingBox: the
`baseline` clause collects the single parsed piece and indexes `v[1]`, a
panic, before the final `bbox` check is reached. -/
theorem C2_baseline_single_token_panics :
    parse_properties "baseline 1".data = PRes.panic := by rfl

/-- For contrast with C2: an attribute text with no usable clause at all
does reach the MissingBoundingBox failure. -/
theorem C2_contrast_missing_bbox :
    parse_properties "x_wconf 96".data
      = PRes.ok (Except.error "Could not find bbox in properties!") := by rfl

/-! ### Claim C9: export identifier assignment
(src/ocr_element.rs, `add_as_body` / `add_ocr_tree`).  Only the identifier
bookkeeping of the export walk is modelled: the HTML construction emits,
per visited node, the `id` attribute string.  The per-family counters are
`u32`s in the source, so increments are taken modulo `2^32` and the
`ids["page"] - 1` subtraction is the wrapping `u32` subtraction. -/

/-- `OCRClass` (src/ocr_element.rs lines 231-242). -/
inductive OCRClass where
  | Page
  | CArea
  | Par
  | Line
  | Word
  | Separator
  | Photo
  | Caption
deriving DecidableEq

/-- `OCRClass::to_id_str` (src/ocr_element.rs lines 270-278). -/
def OCRClass.to_id_str : OCRClass → List Char
  | OCRClass.CArea | OCRClass.Separator | OCRClass.Photo => "block".data
  | OCRClass.Page => "page".data
  | OCRClass.Line | OCRClass.Caption => "line".data
  | OCRClass.Par => "par".data
  | OCRClass.Word => "word".data

/-- `OCRElement` (src/ocr_element.rs lines 144-152). -/
structure OCRElement where
  html_element_type : List Char
  ocr_element_type : OCRClass
  ocr_properties : SMap OCRProperty
  ocr_text : List Char
  ocr_lang : Option (List Char)
deriving DecidableEq

/-- Decimal digits of a natural number (fuel-based so that it reduces in
the kernel). -/
def natToCharsAux : Nat → Nat → List Char
  | 0, _ => []
  | fuel + 1, n =>
      if n < 10 then [Char.ofNat (48 + n)]
      else natToCharsAux fuel (n / 10) ++ [Char.ofNat (48 + n % 10)]

def natToChars (n : Nat) : List Char := natToCharsAux (n + 1) n

/-- The emitted `id` attribute: `"{family}_{seq}"`, or
`"{family}_{page}_{seq}"` when a page number is present. -/
def fmtId (fam : List Char) (pg : Option Nat) (seq : Nat) : List Char :=
  match pg with
  | none => fam ++ '_' :: natToChars seq
  | some p => fam ++ '_' :: natToChars p ++ '_' :: natToChars seq

/-- The identifier family of the node stored at `k` (empty for an absent
node, which the walk skips anyway). -/
def famAt (t : Tree OCRElement) (k : Nat) : List Char :=
  match mfind t.nodes k with
  | some n => n.value.ocr_element_type.to_id_str
  | none => []

/-- The families of the nodes of a shape forest in walk (preorder)
order. -/
def famSeqF (t : Tree OCRElement) (ks : List Shape) : List (List Char) :=
  (flatL ks).map (famAt t)

/-- How many entries of `l` equal `f`. -/
def countIn (f : List Char) (l : List (List Char)) : Nat :=
  (l.filter (fun x => x = f)).length

/-- The five-family counter map in the source's seeding order. -/
def mk5 (a b c d e : Nat) : SMap Nat :=
  [("page".data, a), ("block".data, b), ("par".data, c),
   ("line".data, d), ("word".data, e)]

/-- The counter map after the nodes with family sequence `done` have been
emitted: each family's counter is one more than the number already
emitted of that family. -/
def idsOf (done : List (List Char)) : SMap Nat :=
  mk5 (countIn "page".data done + 1) (countIn "block".data done + 1)
    (countIn "par".data done + 1) (countIn "line".data done + 1)
    (countIn "word".data done + 1)

/-- The seeded counters of `add_as_body` (src/ocr_element.rs lines
373-378). -/
def seedIds : SMap Nat := mk5 1 1 1 1 1

/-- `add_ocr_tree` (src/ocr_element.rs lines 395-457), reduced to its
identifier bookkeeping: skip an absent node; otherwise read and bump the
node's family counter (`u32`, hence mod `2^32`), emit
`"page_{seq}"` for the page family and
`"{family}_{ids[page]-1}_{seq}"` (wrapping `u32` subtraction) otherwise,
then walk the children in order.  The counter lookups are `unwrap`s.  The
fuel only limits the recursion depth; `add_as_body` passes the node
count, which bounds the depth of any well-formed forest. -/
def exportNode : Nat → Tree OCRElement → Nat → SMap Nat →
    PRes (SMap Nat × List (List Char))
  | 0, _, _, ids => PRes.ok (ids, [])
  | fuel + 1, t, id, ids =>
      match mfind t.nodes id with
      | none => PRes.ok (ids, [])
      | some n =>
          let type_id := n.value.ocr_element_type.to_id_str
          match sfind ids type_id with
          | none => PRes.panic
          | some curr_no =>
              let ids1 := sset ids type_id ((curr_no + 1) % U32MOD)
              match
                (if type_id = "page".data then
                  PRes.ok (fmtId type_id none curr_no)
                else
                  match sfind ids1 "page".data with
                  | none => PRes.panic
                  | some pg =>
                      PRes.ok (fmtId type_id
                        (some ((pg + (U32MOD - 1)) % U32MOD)) curr_no)) with
              | PRes.panic => PRes.panic
              | PRes.ok html_id =>
                  n.children.foldl
                    (fun acc c =>
                      match acc with
                      | PRes.panic => PRes.panic
                      | PRes.ok pr =>
                          match exportNode fuel t c pr.1 with
                          | PRes.panic => PRes.panic
                          | PRes.ok pr2 => PRes.ok (pr2.1, pr.2 ++ pr2.2))
                    (PRes.ok (ids1, [html_id]))

/-- The step the export folds over a sibling list. -/
def exportStep (fuel : Nat) (t : Tree OCRElement)
    (acc : PRes (SMap Nat × List (List Char))) (c : Nat) :
    PRes (SMap Nat × List (List Char)) :=
  match acc with
  | PRes.panic => PRes.panic
  | PRes.ok pr =>
      match exportNode fuel t c pr.1 with
      | PRes.panic => PRes.panic
      | PRes.ok pr2 => PRes.ok (pr2.1, pr.2 ++ pr2.2)

/-- `add_as_body` (src/ocr_element.rs lines 368-392), reduced to its
identifier bookkeeping: seed the five family counters at 1 and export
every root in order. -/
def add_as_body (t : Tree OCRElement) : PRes (SMap Nat × List (List Char)) :=
  t.roots.foldl (exportStep t.nodes.length t) (PRes.ok (seedIds, []))

/-- The claim's description of the identifier assignment, written from
the spec's words: walk the emitted nodes in order; each node of family
`f` receives sequence number `1 +` (nodes of family `f` already
emitted) — counters seeded at 1, never reset — formatted as
`"{family}_{seq}"` for the page family and
`"{family}_{pageNo}_{seq}"` otherwise, where `pageNo` is the number of
page-family nodes already emitted. -/
def specWalk : List (List Char) → List (List Char) → List (List Char)
  | _, [] => []
  | done, f :: rest =>
      (if f = "page".data then fmtId f none (countIn f done + 1)
       else fmtId f (some (countIn "page".data done)) (countIn f done + 1))
        :: specWalk (done ++ [f]) rest

/-- An OCR element of class `c` with no properties or text. -/
def elOf (c : OCRClass) : OCRElement := ⟨"div".data, c, [], [], none⟩

/-- The example forest again, now carrying OCR elements: two pages, the
first with a block and a word, the second with a line. -/
def exTO : Tree OCRElement :=
  ⟨[(0, ⟨elOf OCRClass.Page, none, [1, 2], 0⟩),
    (1, ⟨elOf OCRClass.CArea, some 0, [], 1⟩),
    (2, ⟨elOf OCRClass.Word, some 0, [], 2⟩),
    (3, ⟨elOf OCRClass.Page, none, [4], 3⟩),
    (4, ⟨elOf OCRClass.Line, some 3, [], 4⟩)], [0, 3], 5⟩

/-- Concrete evaluation of the export bookkeeping on `exTO`: the block
and line of the second page are numbered against the running page
counter, and no counter restarts at the second page. -/
theorem add_as_body_exTO :
    add_as_body exTO = PRes.ok (mk5 3 2 1 2 2,
      ["page_1".data, "block_1_1".data, "word_1_1".data,
       "page_2".data, "line_2_1".data]) := by decide

/-! ### Lemmas for the export walk -/

theorem to_id_str_cases (c : OCRClass) :
    c.to_id_str = "page".data ∨ c.to_id_str = "block".data ∨
    c.to_id_str = "par".data ∨ c.to_id_str = "line".data ∨
    c.to_id_str = "word".data := by
  cases c <;> simp [OCRClass.to_id_str]

theorem countIn_snoc (g f : List Char) (d : List (List Char)) :
    countIn g (d ++ [f]) = countIn g d + (if f = g then 1 else 0) := by
  by_cases h : f = g <;> simp [countIn, List.filter_append, h]

theorem countIn_le (g : List Char) (d : List (List Char)) :
    countIn g d ≤ d.length :=
  List.length_filter_le _ _

/-- Reading the counter of any of the five families. -/
theorem sfind_idsOf (c : OCRClass) (done : List (List Char)) :
    sfind (idsOf done) c.to_id_str = some (countIn c.to_id_str done + 1) := by
  cases c <;> simp +decide [OCRClass.to_id_str, idsOf, mk5, sfind]

/-- Bumping the counter of any of the five families. -/
theorem sset_idsOf (c : OCRClass) (done : List (List Char)) :
    sset (idsOf done) c.to_id_str (countIn c.to_id_str done + 1 + 1)
      = idsOf (done ++ [c.to_id_str]) := by
  cases c <;> simp +decide [OCRClass.to_id_str, idsOf, mk5, sset, countIn_snoc]

theorem specWalk_append (A : List (List Char)) :
    ∀ (d : List (List Char)) (B : List (List Char)),
      specWalk d (A ++ B) = specWalk d A ++ specWalk (d ++ A) B := by
  induction A with
  | nil => intro d B; simp [specWalk]
  | cons f A ih =>
      intro d B
      simp only [List.cons_append, specWalk, List.append_eq]
      rw [ih (d ++ [f]) B, List.append_assoc]
      rfl

theorem flatL_decomp (s : Shape) (r : List Shape) :
    flatL (s :: r) = flatL [s] ++ flatL r := by
  obtain ⟨i, ks⟩ := s
  simp [Shape.nid, Shape.kids]

theorem flatL_mem_length {s : Shape} {l : List Shape} (hs : s ∈ l) :
    (flatL [s]).length ≤ (flatL l).length := by
  induction l with
  | nil => cases hs
  | cons a r ih =>
      rcases List.mem_cons.mp hs with h | h
      · subst h
        rw [flatL_decomp s r, List.length_append]
        omega
      · calc (flatL [s]).length ≤ (flatL r).length := ih h
          _ ≤ (flatL (a :: r)).length := by
              rw [flatL_decomp a r, List.length_append]
              omega

theorem allSub_kids {l : List Shape} : ∀ {s : Shape}, s ∈ allSub l →
    ∀ {k : Shape}, k ∈ s.kids → k ∈ allSub l := by
  induction l using forest_ind with
  | h0 => intro s h; simp at h
  | h1 i ks r ihks ihr =>
      intro s hs k hk
      rcases (by simpa using hs) with h | h | h
      · subst h
        simp only [Shape.kids] at hk
        simp only [allSub_cons, List.mem_cons, List.mem_append]
        exact Or.inr (Or.inl (mem_allSub_self hk))
      · simp only [allSub_cons, List.mem_cons, List.mem_append]
        exact Or.inr (Or.inl (ihks h hk))
      · simp only [allSub_cons, List.mem_cons, List.mem_append]
        exact Or.inr (Or.inr (ihr h hk))

theorem famSeqF_decomp (t : Tree OCRElement) (s : Shape) (r : List Shape) :
    famSeqF t (s :: r) = famAt t s.nid :: (famSeqF t s.kids ++ famSeqF t r) := by
  obtain ⟨i, ks⟩ := s
  simp [famSeqF, Shape.nid, Shape.kids]

theorem famSeqF_len (t : Tree OCRElement) (ks : List Shape) :
    (famSeqF t ks).length = (flatL ks).length := by
  simp [famSeqF]

theorem exportNode_succ (fuel : Nat) (t : Tree OCRElement) (id : Nat) (ids : SMap Nat) :
    exportNode (fuel + 1) t id ids =
      match mfind t.nodes id with
      | none => PRes.ok (ids, [])
      | some n =>
          let type_id := n.value.ocr_element_type.to_id_str
          match sfind ids type_id with
          | none => PRes.panic
          | some curr_no =>
              let ids1 := sset ids type_id ((curr_no + 1) % U32MOD)
              match
                (if type_id = "page".data then
                  PRes.ok (fmtId type_id none curr_no)
                else
                  match sfind ids1 "page".data with
                  | none => PRes.panic
                  | some pg =>
                      PRes.ok (fmtId type_id
                        (some ((pg + (U32MOD - 1)) % U32MOD)) curr_no)) with
              | PRes.panic => PRes.panic
              | PRes.ok html_id =>
                  n.children.foldl (exportStep fuel t) (PRes.ok (ids1, [html_id])) := rfl

theorem wrapMinus {p M : Nat} (h1 : 0 < p) (h2 : p < M) :
    (p + (M - 1)) % M = p - 1 := by
  rw [show p + (M - 1) = (p - 1) + M by omega, Nat.add_mod_right,
    Nat.mod_eq_of_lt (by omega)]

/-- The heart of C9: folding the export step over a well-formed shape
forest whose counters record the families `done` already emitted produces
exactly the identifiers the claim describes, and leaves the counters
recording `done` extended by the emitted families. -/
theorem export_forest {t : Tree OCRElement} {ss : List Shape} (h : Rep t ss)
    (hb : t.nodes.length + 1 < U32MOD) :
    ∀ ks : List Shape, (∀ s ∈ ks, s ∈ allSub ss) →
    ∀ fuel : Nat, (∀ s ∈ ks, (flatL [s]).length ≤ fuel) →
    ∀ (done prev : List (List Char)),
    done.length + (flatL ks).length ≤ t.nodes.length →
    List.foldl (exportStep fuel t) (PRes.ok (idsOf done, prev)) (ks.map Shape.nid)
      = PRes.ok (idsOf (done ++ famSeqF t ks), prev ++ specWalk done (famSeqF t ks)) := by
  intro ks
  induction ks using forest_ind with
  | h0 =>
      intro _ fuel _ done prev _
      simp [famSeqF, specWalk]
  | h1 i ks r ihks ihr =>
      intro hsub fuel hfuel done prev hlen
      have hsS : Shape.mk i ks ∈ allSub ss := hsub (Shape.mk i ks) (by simp)
      obtain ⟨d2, po2, hsubl⟩ := @sub_entries_sublist ss 0 none (Shape.mk i ks) hsS
      have hhead : (⟨i, po2, ks.map Shape.nid, d2⟩ : Ent) ∈ entL d2 po2 [Shape.mk i ks] := by
        rw [entL_single]
        simp [Shape.nid, Shape.kids]
      obtain ⟨n, hn, _, _, hnch⟩ := h.lookup_ent (hsubl.mem hhead)
      have hn2 : mfind t.nodes i = some n := hn
      have hnch2 : n.children = ks.map Shape.nid := hnch
      have hflen : (flatL (Shape.mk i ks :: r)).length
          = 1 + (flatL ks).length + (flatL r).length := by
        rw [flatL_cons]
        simp only [List.length_cons, List.length_append]
        omega
      have hfz : (flatL [Shape.mk i ks]).length ≤ fuel := hfuel (Shape.mk i ks) (by simp)
      have hfz2 : (flatL [Shape.mk i ks]).length = 1 + (flatL ks).length := by
        rw [flatL_single]
        simp only [List.length_cons, Shape.kids]
        omega
      cases fuel with
      | zero => omega
      | succ fu =>
      have hcle : countIn (n.value.ocr_element_type.to_id_str) done ≤ done.length :=
        countIn_le _ _
      have hcple : countIn "page".data done ≤ done.length := countIn_le _ _
      have hmod : (countIn (n.value.ocr_element_type.to_id_str) done + 1 + 1) % U32MOD
          = countIn (n.value.ocr_element_type.to_id_str) done + 1 + 1 :=
        Nat.mod_eq_of_lt (by omega)
      have hsf : sfind (idsOf done) (n.value.ocr_element_type.to_id_str)
          = some (countIn (n.value.ocr_element_type.to_id_str) done + 1) :=
        sfind_idsOf _ done
      have hsset : sset (idsOf done) (n.value.ocr_element_type.to_id_str)
          (countIn (n.value.ocr_element_type.to_id_str) done + 1 + 1)
          = idsOf (done ++ [n.value.ocr_element_type.to_id_str]) :=
        sset_idsOf _ done
      have hsub_k : ∀ s ∈ ks, s ∈ allSub ss := fun s hs =>
        allSub_kids hsS (by simpa [Shape.kids] using hs)
      have hfuel_k : ∀ s ∈ ks, (flatL [s]).length ≤ fu := by
        intro s hs
        have h1 := flatL_mem_length hs
        omega
      have hlen_k : (done ++ [n.value.ocr_element_type.to_id_str]).length
          + (flatL ks).length ≤ t.nodes.length := by
        rw [List.length_append]
        simp only [List.length_singleton]
        omega
      have hkids := ihks hsub_k fu hfuel_k
        (done ++ [n.value.ocr_element_type.to_id_str])
        [if n.value.ocr_element_type.to_id_str = "page".data then
            fmtId (n.value.ocr_element_type.to_id_str) none
              (countIn (n.value.ocr_element_type.to_id_str) done + 1)
          else
            fmtId (n.value.ocr_element_type.to_id_str)
              (some (countIn "page".data done))
              (countIn (n.value.ocr_element_type.to_id_str) done + 1)]
        hlen_k
      have hrun : exportNode (fu + 1) t i (idsOf done)
          = PRes.ok
            (idsOf ((done ++ [n.value.ocr_element_type.to_id_str]) ++ famSeqF t ks),
             (if n.value.ocr_element_type.to_id_str = "page".data then
                fmtId (n.value.ocr_element_type.to_id_str) none
                  (countIn (n.value.ocr_element_type.to_id_str) done + 1)
              else
                fmtId (n.value.ocr_element_type.to_id_str)
                  (some (countIn "page".data done))
                  (countIn (n.value.ocr_element_type.to_id_str) done + 1))
               :: specWalk (done ++ [n.value.ocr_element_type.to_id_str])
                    (famSeqF t ks)) := by
        rw [exportNode_succ]
        simp only [hn2, hsf, hmod, hsset]
        by_cases hpage : n.value.ocr_element_type.to_id_str = "page".data
        · rw [if_pos hpage] at hkids
          simp only [if_pos hpage, hnch2, hkids]
          rw [List.singleton_append]
        · have hpg : sfind
              (idsOf (done ++ [n.value.ocr_element_type.to_id_str])) "page".data
              = some (countIn "page".data
                  (done ++ [n.value.ocr_element_type.to_id_str]) + 1) :=
            sfind_idsOf OCRClass.Page _
          have hcpe : countIn "page".data
              (done ++ [n.value.ocr_element_type.to_id_str])
              = countIn "page".data done := by
            rw [countIn_snoc, if_neg hpage]
            omega
          have hwrap : (countIn "page".data
                (done ++ [n.value.ocr_element_type.to_id_str]) + 1 + (U32MOD - 1))
                % U32MOD
              = countIn "page".data done := by
            rw [hcpe, wrapMinus (by omega) (by omega)]
            omega
          rw [if_neg hpage] at hkids
          simp only [if_neg hpage, hpg, hwrap, hnch2, hkids]
          rw [List.singleton_append]
      have hstep : exportStep (fu + 1) t (PRes.ok (idsOf done, prev)) i
          = PRes.ok
            (idsOf ((done ++ [n.value.ocr_element_type.to_id_str]) ++ famSeqF t ks),
             prev ++
              ((if n.value.ocr_element_type.to_id_str = "page".data then
                  fmtId (n.value.ocr_element_type.to_id_str) none
                    (countIn (n.value.ocr_element_type.to_id_str) done + 1)
                else
                  fmtId (n.value.ocr_element_type.to_id_str)
                    (some (countIn "page".data done))
                    (countIn (n.value.ocr_element_type.to_id_str) done + 1))
                :: specWalk (done ++ [n.value.ocr_element_type.to_id_str])
                     (famSeqF t ks))) := by
        rw [exportStep, hrun]
      have hlen_r : ((done ++ [n.value.ocr_element_type.to_id_str]) ++ famSeqF t ks).length
          + (flatL r).length ≤ t.nodes.length := by
        rw [List.length_append, List.length_append, famSeqF_len]
        simp only [List.length_singleton]
        omega
      have hrest := ihr (fun s hs => hsub s (List.mem_cons_of_mem _ hs)) (fu + 1)
        (fun s hs => hfuel s (List.mem_cons_of_mem _ hs))
        ((done ++ [n.value.ocr_element_type.to_id_str]) ++ famSeqF t ks)
        (prev ++
          ((if n.value.ocr_element_type.to_id_str = "page".data then
              fmtId (n.value.ocr_element_type.to_id_str) none
                (countIn (n.value.ocr_element_type.to_id_str) done + 1)
            else
              fmtId (n.value.ocr_element_type.to_id_str)
                (some (countIn "page".data done))
                (countIn (n.value.ocr_element_type.to_id_str) done + 1))
            :: specWalk (done ++ [n.value.ocr_element_type.to_id_str]) (famSeqF t ks)))
        hlen_r
      have hfam : famAt t i = n.value.ocr_element_type.to_id_str := by
        unfold famAt
        rw [hn2]
      rw [List.map_cons, List.foldl_cons, show (Shape.mk i ks).nid = i from rfl, hstep, hrest]
      rw [PRes.ok.injEq, Prod.mk.injEq]
      constructor
      · rw [famSeqF_decomp, show (Shape.mk i ks).nid = i from rfl, hfam]
        simp [List.append_assoc, Shape.kids]
      · rw [famSeqF_decomp, show (Shape.mk i ks).nid = i from rfl, hfam, specWalk]
        rw [specWalk_append]
        simp [List.append_assoc, Shape.kids]

/-- C9: on a well-formed forest whose node count stays clear of the
`u32` counter range, the export emits for every visited node exactly the
identifier the claim describes — `"page_{seq}"` for page-family nodes and
`"{family}_{pageNo}_{seq}"` otherwise, with every family's sequence
counter seeded at 1, incremented once per emitted node of that family,
and never reset when a new page root starts (`specWalk` is that
description, written from the spec's words). -/
theorem C9_export_id_format (t : Tree OCRElement) (ss : List Shape) (h : Rep t ss)
    (hb : t.nodes.length + 1 < U32MOD) :
    add_as_body t = PRes.ok (idsOf (famSeqF t ss), specWalk [] (famSeqF t ss)) := by
  have hkl : (flatL ss).length = t.nodes.length := by
    have h1 := h.flat_perm_keys.length_eq
    rw [h1]
    simp [keys]
  have hfuel : ∀ s ∈ ss, (flatL [s]).length ≤ t.nodes.length := by
    intro s hs
    have h1 := flatL_mem_length hs
    omega
  have hmain := export_forest h hb ss (fun s hs => mem_allSub_self hs)
    t.nodes.length hfuel [] [] (by simp [hkl])
  rw [add_as_body, h.roots_eq, show seedIds = idsOf [] from rfl]
  simpa using hmain

/-- `exTO` is well-formed with shape forest `exSS`. -/
theorem rep_exO : Rep exTO exSS := by
  rw [Rep, entF_ex]
  decide

/-- Witness for C9 at the two-page example forest. -/
theorem C9_witness :
    Rep exTO exSS ∧ exTO.nodes.length + 1 < U32MOD ∧
      add_as_body exTO
        = PRes.ok (idsOf (famSeqF exTO exSS), specWalk [] (famSeqF exTO exSS)) :=
  ⟨rep_exO, by decide, C9_export_id_format exTO exSS rep_exO (by decide)⟩

/-! ### Claim C8: the import / export round trip
(src/ocr_element.rs).  The HTML document is modelled as a forest of
`HNode`s — the body's element children with their `class` list, `title`
and `lang` attributes and text children; the export's `id` attribute is
covered by C9 and ignored by the importer, so it is dropped here.
`HashMap` iteration during serialization is modelled as insertion order.
All recursions over the document carry explicit fuel so that they reduce
in the kernel; every theorem instantiates the fuel generously. -/

inductive HNode where
  | elem (name : List Char) (classes : List (List Char))
      (title : Option (List Char)) (lang : Option (List Char))
      (children : List HNode)
  | text (s : List Char)

/-- The eight class names of `OCR_SELECTOR` (src/ocr_element.rs lines
16-17). -/
def ocrSelectorClasses : List (List Char) :=
  ["ocr_page".data, "ocr_carea".data, "ocr_line".data, "ocr_par".data,
   "ocrx_word".data, "ocr_caption".data, "ocr_separator".data, "ocr_photo".data]

/-- Does the element match `OCR_SELECTOR`? -/
def matchesOcr (hn : HNode) : Bool :=
  match hn with
  | HNode.text _ => false
  | HNode.elem _ classes _ _ _ => classes.any (fun c => ocrSelectorClasses.contains c)

/-- Does the element match `OCR_PAGE_SELECTOR`? -/
def matchesPage (hn : HNode) : Bool :=
  match hn with
  | HNode.text _ => false
  | HNode.elem _ classes _ _ _ => classes.contains "ocr_page".data

/-- Does the element match `OCR_WORD_SELECTOR`? -/
def matchesWord (hn : HNode) : Bool :=
  match hn with
  | HNode.text _ => false
  | HNode.elem _ classes _ _ _ => classes.contains "ocrx_word".data

def startsWithOcr (cs : List Char) : Bool :=
  match cs with
  | 'o' :: 'c' :: 'r' :: _ => true
  | _ => false

/-- The class-scanning loop of `html_elt_to_ocr_elt` (lines 176-182): the
last class that starts with `"ocr"` wins. -/
def lastOcrClass (classes : List (List Char)) : Option (List Char) :=
  classes.foldl (fun acc c => if startsWithOcr c then some c else acc) none

/-- `OCRClass::from_str` (src/ocr_element.rs lines 286-298). -/
def OCRClass.from_str (s : List Char) : Option OCRClass :=
  if s = "ocr_page".data then some OCRClass.Page
  else if s = "ocr_carea".data then some OCRClass.CArea
  else if s = "ocr_line".data then some OCRClass.Line
  else if s = "ocr_par".data then some OCRClass.Par
  else if s = "ocrx_word".data then some OCRClass.Word
  else if s = "ocr_photo".data then some OCRClass.Photo
  else if s = "ocr_separator".data then some OCRClass.Separator
  else if s = "ocr_caption".data then some OCRClass.Caption
  else none

/-- `get_root_text` (lines 171-173): all descendant text pieces with
non-blank trim, joined. -/
def rootTextF : Nat → HNode → List Char
  | 0, _ => []
  | _ + 1, HNode.text s => if trimList s = [] then [] else s
  | fuel + 1, HNode.elem _ _ _ _ cs =>
      cs.foldl (fun acc c => acc ++ rootTextF fuel c) []

/-- `html_elt_to_ocr_elt` (src/ocr_element.rs lines 175-210). -/
def html_elt_to_ocr_elt (fuel : Nat) (hn : HNode) : PRes (Except String OCRElement) :=
  match hn with
  | HNode.text _ => PRes.ok (Except.error "not an element")
  | HNode.elem name classes title lang children =>
      match lastOcrClass classes with
      | none => PRes.ok (Except.error "Found no OCR class")
      | some oc =>
          match OCRClass.from_str oc with
          | none => PRes.ok (Except.error "Failed to parse into OCR class")
          | some cls =>
              match title with
              | none => PRes.ok (Except.error "No content in title attribute")
              | some text =>
                  match parse_properties text with
                  | PRes.panic => PRes.panic
                  | PRes.ok (Except.error e) => PRes.ok (Except.error e)
                  | PRes.ok (Except.ok props) =>
                      PRes.ok (Except.ok
                        { html_element_type := name
                          ocr_element_type := cls
                          ocr_properties := props
                          ocr_text :=
                            if matchesWord (HNode.elem name classes title lang children)
                            then rootTextF fuel (HNode.elem name classes title lang children)
                            else []
                          ocr_lang := lang })

/-- `add_children_to_ocr_tree` (src/ocr_element.rs lines 155-169): walk
the element children in order; a child matching `OCR_SELECTOR` is
converted and pushed under `par`; on conversion or push failure the child
is skipped (its subtree too, for a push failure). -/
def addChildren : Nat → HNode → Nat → Tree OCRElement → PRes (Tree OCRElement)
  | 0, _, _, t => PRes.ok t
  | _ + 1, HNode.text _, _, t => PRes.ok t
  | fuel + 1, HNode.elem _ _ _ _ cs, par, t =>
      cs.foldl
        (fun acc child =>
          match acc with
          | PRes.panic => PRes.panic
          | PRes.ok t1 =>
              if matchesOcr child then
                match html_elt_to_ocr_elt fuel child with
                | PRes.panic => PRes.panic
                | PRes.ok (Except.error _) => PRes.ok t1
                | PRes.ok (Except.ok elt) =>
                    match t1.push_child par elt with
                    | (Except.ok added, t2) => addChildren fuel child added t2
                    | (Except.error _, t2) => PRes.ok t2
              else PRes.ok t1)
        (PRes.ok t)

/-- `Html::select(OCR_PAGE_SELECTOR)`: every element of the document
matching `.ocr_page`, in document (preorder) order. -/
def selectPages : Nat → List HNode → List HNode
  | 0, _ => []
  | fuel + 1, ns =>
      ns.foldl
        (fun acc hn =>
          acc ++
            match hn with
            | HNode.text _ => []
            | HNode.elem name classes title lang cs =>
                (if matchesPage (HNode.elem name classes title lang cs)
                 then [HNode.elem name classes title lang cs] else []) ++
                  selectPages fuel cs)
        []

/-- `html_to_ocr_tree` (src/ocr_element.rs lines 212-228): every
`.ocr_page` element of the document becomes a root (nested pages
included), and its `OCR_SELECTOR`-matching descendants are added below
it; elements that fail to convert are skipped. -/
def html_to_ocr_tree (fuel : Nat) (doc : List HNode) : PRes (Tree OCRElement) :=
  (selectPages fuel doc).foldl
    (fun acc pe =>
      match acc with
      | PRes.panic => PRes.panic
      | PRes.ok t =>
          match html_elt_to_ocr_elt fuel pe with
          | PRes.panic => PRes.panic
          | PRes.ok (Except.error _) => PRes.ok t
          | PRes.ok (Except.ok elt) =>
              let r := t.add_root elt
              addChildren fuel pe r.1 r.2)
    (PRes.ok Tree.new)

/-- `OCRClass::to_string` (src/ocr_element.rs lines 301-314). -/
def OCRClass.to_string : OCRClass → List Char
  | OCRClass.CArea => "ocr_carea".data
  | OCRClass.Page => "ocr_page".data
  | OCRClass.Line => "ocr_line".data
  | OCRClass.Par => "ocr_par".data
  | OCRClass.Word => "ocrx_word".data
  | OCRClass.Photo => "ocr_photo".data
  | OCRClass.Separator => "ocr_separator".data
  | OCRClass.Caption => "ocr_caption".data

/-- `f32 as u32`: saturating truncation toward zero (NaN is not
modelled). -/
def eratToU32 (q : ERat) : Nat :=
  if q.num < 0 then 0
  else min ((q.num / (q.den : Int)).toNat) (U32MOD - 1)

/-- Decimal digits of the fractional part `r / d`, with fuel (the f32
values of interest have terminating decimal expansions). -/
def fracDigitsQ : Nat → Nat → Nat → List Char
  | 0, _, _ => []
  | fuel + 1, r, d =>
      if r = 0 then []
      else
        Char.ofNat (48 + r * 10 / d) :: fracDigitsQ fuel (r * 10 % d) d

/-- Display of an `f32` value (Rust `f32::to_string`), modelled as the
exact decimal expansion of the rational. -/
def eratToChars (q : ERat) : List Char :=
  (if q.num < 0 then ['-'] else []) ++
    natToChars (q.num.natAbs / q.den) ++
    (let ds := fracDigitsQ 64 (q.num.natAbs % q.den) q.den
     if ds.isEmpty then [] else '.' :: ds)

/-- `OCRProperty::to_str` (src/ocr_element.rs lines 120-138). -/
def OCRProperty.to_str : OCRProperty → List Char
  | OCRProperty.BBox r =>
      natToChars (eratToU32 r.min.x) ++ ' ' :: natToChars (eratToU32 r.min.y)
        ++ ' ' :: natToChars (eratToU32 r.max.x) ++ ' ' :: natToChars (eratToU32 r.max.y)
  | OCRProperty.Image s => '"' :: (s ++ ['"'])
  | OCRProperty.Float f => eratToChars f
  | OCRProperty.UInt u => natToChars u
  | OCRProperty.Baseline a b => eratToChars a ++ ' ' :: eratToChars b
  | OCRProperty.ScanRes a b => natToChars a ++ ' ' :: natToChars b

def joinSemiSp : List (List Char) → List Char
  | [] => []
  | [x] => x
  | x :: y :: r => x ++ ';' :: ' ' :: joinSemiSp (y :: r)

/-- The `title` attribute written by the export (lines 411-414): the
properties serialized as `"{name} {value}"`, joined with `"; "` in map
iteration order. -/
def serializeProps (props : SMap OCRProperty) : List Char :=
  joinSemiSp (props.map (fun p => p.1 ++ ' ' :: OCRProperty.to_str p.2))

/-- The element the export writes for one node plus its subtree
(`add_ocr_tree`, minus the `id` bookkeeping): `class` is the class
string, `title` the serialized properties, the text child comes first
when `ocr_text` is non-empty, then the exported children in order. -/
def exportH : Nat → Tree OCRElement → Nat → List HNode
  | 0, _, _ => []
  | fuel + 1, t, id =>
      match mfind t.nodes id with
      | none => []
      | some n =>
          [HNode.elem n.value.html_element_type [n.value.ocr_element_type.to_string]
            (some (serializeProps n.value.ocr_properties))
            n.value.ocr_lang
            ((if n.value.ocr_text.isEmpty then [] else [HNode.text n.value.ocr_text]) ++
              n.children.foldl (fun acc c => acc ++ exportH fuel t c) [])]

/-- The body the export produces: the roots exported in order. -/
def exportBody (t : Tree OCRElement) : List HNode :=
  t.roots.foldl (fun acc r => acc ++ exportH t.nodes.length t r) []

/-- The depth-tagged preorder flattening of a forest's payloads: the
identifier-independent content that "same shape, same per-node data"
compares (two forests have the same shape and data iff their flattenings
agree). -/
def flatData : Nat → Tree OCRElement → List Nat → Nat → List (Nat × OCRElement)
  | 0, _, _, _ => []
  | fuel + 1, t, ids, d =>
      ids.foldl
        (fun acc i =>
          acc ++
            match mfind t.nodes i with
            | none => []
            | some n => (d, n.value) :: flatData fuel t n.children (d + 1))
        []

/-- The identifier-independent content of a forest. -/
def toDForest (t : Tree OCRElement) : List (Nat × OCRElement) :=
  flatData (t.nodes.length + 1) t t.roots 0

/-- The nested-page document: a page containing another page, both with
well-formed bounding boxes. -/
def nestedDoc : List HNode :=
  [HNode.elem "div".data ["ocr_page".data] (some "bbox 0 0 100 100".data) none
    [HNode.elem "div".data ["ocr_page".data] (some "bbox 0 0 50 50".data) none []]]

/-- C8: refuted — importing the nested-page document yields 3 nodes (the
inner page is picked up both as a child and as a root), and importing its
export yields 4: the exported markup contains the inner page twice, and
the second import duplicates it again, so the round trip does not
preserve the node count. -/
theorem C8_roundtrip_counterexample :
    ∃ t1 t2,
      html_to_ocr_tree 10 nestedDoc = PRes.ok t1 ∧ t1.nodes.length = 3 ∧
      html_to_ocr_tree 10 (exportBody t1) = PRes.ok t2 ∧ t2.nodes.length = 4 := by
  refine ⟨_, _, rfl, ?_, rfl, ?_⟩ <;> decide

/-- A flat document: one page, one area, one word with text. -/
def flatDoc : List HNode :=
  [HNode.elem "div".data ["ocr_page".data] (some "bbox 0 0 100 100".data) none
    [HNode.elem "div".data ["ocr_carea".data] (some "bbox 1 2 3 4".data) none
      [HNode.elem "span".data ["ocrx_word".data]
        (some "bbox 1 2 3 4; x_wconf 96".data) none
        [HNode.text "hi".data]]]]

/-- For contrast with C8: without nested pages the round trip preserves
the identifier-independent content exactly — node count, classes,
property values, text, element names and languages. -/
theorem C8_contrast_flat_roundtrip :
    ∃ t1 t2,
      html_to_ocr_tree 10 flatDoc = PRes.ok t1 ∧
      html_to_ocr_tree 10 (exportBody t1) = PRes.ok t2 ∧
      t1.nodes.length = 3 ∧ toDForest t2 = toDForest t1 := by
  refine ⟨_, _, rfl, rfl, ?_, ?_⟩ <;> decide

end HocrEditor
